import Mathlib

/-!
Verification development for the resource-expression lexer
(`googlecloudsdk/core/resource/resource_lex.py`).

The Python source is shallowly embedded below: the expression string is a
`List Char` with an integer position cursor, fallible operations return
`Except LexError`, Python `int`/`float` coercions are modelled exactly
(floats as exact rational values of the literal), and the parser loops are
fueled (the fuel supplied by the wrappers always suffices for terminating
inputs; `LexError.outOfFuel` is an artifact never reached on them).
-/

namespace ResourceLex

/-- Characters recognized by Python 2 `str.isspace()`. -/
def spaceChars : List Char := [' ', '\t', '\n', '\r', '\x0B', '\x0C']

/-- Python 2 `str.isspace()` for a single character. -/
def pyIsSpace (c : Char) : Bool := c ∈ spaceChars

/-- Regex word character (`[a-zA-Z0-9_]`), the complement of `\W`. -/
def isWordChar (c : Char) : Bool := c.isAlphanum || c = '_'

/-- The reserved operator characters `_RESERVED_OPERATOR_CHARS`
(source line 81): `[].(){},:=!<>+*/%&|^~@#;?`. -/
def RESERVED : List Char :=
  ['[', ']', '.', '(', ')', '{', '}', ',', ':', '=', '!', '<', '>',
   '+', '*', '/', '%', '&', '|', '^', '~', '@', '#', ';', '?']

/-- The quote characters `Lexer._QUOTES` (`'` and `"`). -/
def QUOTES : List Char := ['\'', '"']

/-- Strips leading and trailing Python whitespace (as `int()`/`float()` do). -/
def stripWs (cs : List Char) : List Char :=
  ((cs.dropWhile pyIsSpace).reverse.dropWhile pyIsSpace).reverse

/-- Numeric value of a decimal digit character. -/
def digitVal (c : Char) : Nat := c.toNat - 48

/-- Value of a decimal digit string (assuming all characters are digits). -/
def digitsVal (cs : List Char) : Nat := cs.foldl (fun a c => a * 10 + digitVal c) 0

/-- Parses a non-empty all-digit string, as the digits part of Python `int()`. -/
def digitsToNat? (cs : List Char) : Option Nat :=
  if cs ≠ [] ∧ cs.all Char.isDigit then some (digitsVal cs) else none

/-- Python 2 `int(string)`: optional surrounding whitespace, optional sign,
then a non-empty run of decimal digits. -/
def pyParseInt (s : String) : Option Int :=
  match stripWs s.toList with
  | '+' :: ds => (digitsToNat? ds).map Int.ofNat
  | '-' :: ds => (digitsToNat? ds).map (fun m => -(Int.ofNat m))
  | ds => (digitsToNat? ds).map Int.ofNat

/-- Value of a Python `float(string)`: a finite value is kept as the exact
rational value of the literal. -/
inductive PyFloat where
  | finite (q : ℚ)
  | inf (neg : Bool)
  | nan
  deriving DecidableEq, Repr

/-- Parses the exponent suffix of a float literal: empty, or
`(e|E)[+-]?digits`. Returns the exponent or none on a malformed suffix. -/
def parseExp (cs : List Char) : Option Int :=
  match cs with
  | [] => some 0
  | c :: r =>
    if c = 'e' ∨ c = 'E' then
      let (eneg, r2) : Bool × List Char :=
        match r with
        | '+' :: r3 => (false, r3)
        | '-' :: r3 => (true, r3)
        | r3 => (false, r3)
      let ed := r2.takeWhile Char.isDigit
      let r4 := r2.dropWhile Char.isDigit
      if ed = [] ∨ r4 ≠ [] then none
      else some (if eneg then -(digitsVal ed : Int) else (digitsVal ed : Int))
    else none

/-- Python 2 `float(string)`: optional surrounding whitespace, optional sign,
then `inf`/`infinity`/`nan` (case-insensitive) or
`digits [. digits] [exponent]` with at least one mantissa digit. -/
def pyParseFloat (s : String) : Option PyFloat :=
  let cs := stripWs s.toList
  let (neg, cs) : Bool × List Char :=
    match cs with
    | '+' :: r => (false, r)
    | '-' :: r => (true, r)
    | r => (false, r)
  let lower := cs.map Char.toLower
  if lower = "inf".toList ∨ lower = "infinity".toList then some (.inf neg)
  else if lower = "nan".toList then some .nan
  else
    let ip := cs.takeWhile Char.isDigit
    let rest := cs.dropWhile Char.isDigit
    let (fp, rest) : List Char × List Char :=
      match rest with
      | '.' :: r => (r.takeWhile Char.isDigit, r.dropWhile Char.isDigit)
      | r => ([], r)
    if ip = [] ∧ fp = [] then none
    else
      match parseExp rest with
      | none => none
      | some e =>
        let m : Int := digitsVal (ip ++ fp)
        let m : Int := if neg then -m else m
        let num : Int := if 0 ≤ e then m * 10 ^ e.toNat else m
        let den : Nat :=
          if 0 ≤ e then 10 ^ fp.length else 10 ^ fp.length * 10 ^ (-e).toNat
        some (.finite (mkRat num den))

/-- Decimal digit character (only used for digits 0-9). -/
def digitChar : Nat → Char
  | 0 => '0' | 1 => '1' | 2 => '2' | 3 => '3' | 4 => '4'
  | 5 => '5' | 6 => '6' | 7 => '7' | 8 => '8' | 9 => '9'
  | _ => '*'

/-- Fueled decimal rendering of a natural number (most significant first). -/
def natDecAux : Nat → Nat → List Char
  | 0, _ => []
  | fuel + 1, n => if n = 0 then [] else natDecAux fuel (n / 10) ++ [digitChar (n % 10)]

/-- Decimal rendering of a natural number, as Python `str`/`format` print it. -/
def natDec (n : Nat) : List Char := if n = 0 then ['0'] else natDecAux n n

/-- Decimal rendering of an integer, as Python `'[x]'.format(int)` prints it. -/
def intReprChars (n : Int) : List Char :=
  if n < 0 then '-' :: natDec n.natAbs else natDec n.natAbs

/-! ## Lexer state -/

/-- All lexer state: the expression string and the current position
(`Lexer._expr` and `Lexer._position`). -/
structure LexState where
  expr : List Char
  pos : Nat
  deriving DecidableEq, Repr

/-- Embedding of every `ExpressionSyntaxError` raise site reachable from the
embedded operations, each carrying the annotated expression, plus the fuel
artifact of the embedding. -/
inductive LexError where
  | moreTokensExpected (annot : String)
  | tokenExpected (token : String) (annot : String)
  | unterminatedQuote (q : Char) (annot : String)
  | argExpected (annot : String)
  | unmatchedBracket (annot : String)
  | nonEmptyKeyNameExpected (annot : String)
  | unknownTransformFunction (name : String) (annot : String)
  | transformFunctionExpected (annot : String)
  | conditionalFilterExpected (annot : String)
  | outOfFuel
  deriving DecidableEq, Repr

deriving instance DecidableEq for Except

/-- The remaining unparsed input. -/
def LexState.rest (st : LexState) : List Char := st.expr.drop st.pos

/-- `Lexer.EndOfInput` at the current position. -/
def Lexer.EndOfInput (st : LexState) : Bool := st.expr.length ≤ st.pos

/-- `Lexer.Annotate`: the expression with `*HERE*` inserted at `here`, padded
with one space on each side adjacent to non-space characters. -/
def Annotate (st : LexState) (here : Nat) : String :=
  let cursor := "*HERE*"
  let cursor := if 0 < here ∧ pyIsSpace (st.expr.getD (here - 1) ' ') = false
    then " " ++ cursor else cursor
  let cursor := if here < st.expr.length ∧ pyIsSpace (st.expr.getD here ' ') = false
    then cursor ++ " " else cursor
  String.mk (st.expr.take here) ++ cursor ++ String.mk (st.expr.drop here)

/-- Position/continue flag after skipping spaces from `pos` in the given
remaining input: `(new position, input remains)`. -/
def skipSpaceAux : List Char → Nat → Nat × Bool
  | [], pos => (pos, false)
  | c :: cs, pos => if pyIsSpace c then skipSpaceAux cs (pos + 1) else (pos, true)

/-- `Lexer.SkipSpace()` without a token label: never fails, returns whether
input remains. -/
def Lexer.SkipSpace (st : LexState) : Bool × LexState :=
  let r := skipSpaceAux st.rest st.pos
  (r.2, { st with pos := r.1 })

/-- `Lexer.SkipSpace(token=...)`: fails at end of input with the token label. -/
def Lexer.SkipSpaceTok (st : LexState) (token : String) : Except LexError LexState :=
  let r := Lexer.SkipSpace st
  if r.1 then .ok r.2 else .error (.tokenExpected token (Annotate r.2 r.2.pos))

/-- `Lexer.IsCharacter(characters, peek, eoi_ok)`: checks the next character
against a set, consuming it on a match unless peeking. -/
def Lexer.IsCharacter (st : LexState) (chars : List Char) (peek : Bool) (eoiOk : Bool) :
    Except LexError (Option Char × LexState) :=
  match st.rest with
  | [] =>
    if peek ∨ eoiOk then .ok (none, st)
    else .error (.moreTokensExpected (Annotate st st.pos))
  | c :: _ =>
    if c ∈ chars then
      if peek then .ok (some c, st) else .ok (some c, { st with pos := st.pos + 1 })
    else .ok (none, st)

/-! ## The token scanner (`Lexer.Token`, source lines 383-435) -/

/-- Result of the character-scanning loop of `Lexer.Token`: the token
character list (`none` when no token characters were found), whether any
quoted part was seen, and the stop position. -/
structure ScanOut where
  token : Option (List Char)
  quoted : Bool
  pos : Nat
  deriving DecidableEq, Repr

/-- The scanning loop of `Lexer.Token` (source lines 387-431), one branch per
source branch, in source order.  The error value is the open quote character
of an unterminated quote. -/
def tokenScanAux (terms : List Char) (bal : Bool) :
    List Char → Nat → Option Char → Bool → Option (List Char) → Int →
    Except Char ScanOut
  | [], pos, quote, quoted, token, _ =>
    match quote with
    | some q => .error q
    | none => .ok ⟨token, quoted, pos⟩
  | '\\' :: c2 :: cs, pos, quote, quoted, token, paren =>
    -- escape character followed by any character: consume both,
    -- unescaping only the escape character and (active or any) quotes
    let tok := token.getD []
    let tok2 := if c2 ≠ '\\' ∧ some c2 ≠ quote ∧ (quote.isSome ∨ c2 ∉ QUOTES)
      then tok ++ ['\\', c2] else tok ++ [c2]
    tokenScanAux terms bal cs (pos + 2) quote quoted (some tok2) paren
  | c :: cs, pos, quote, quoted, token, paren =>
    -- an escape character at end of input is an ordinary character
    if some c = quote then
      -- the end of the current quote
      tokenScanAux terms bal cs (pos + 1) none quoted token paren
    else if quote = none ∧ c ∈ QUOTES then
      -- the start of a new quote
      tokenScanAux terms bal cs (pos + 1) (some c) true (some (token.getD [])) paren
    else if quote = none ∧ bal ∧ (c = '(' ∨ c = ')') then
      if c = '(' then
        tokenScanAux terms bal cs (pos + 1) quote quoted
          (some (token.getD [] ++ [c])) (paren + 1)
      else if c ∈ terms ∧ paren = 0 then
        .ok ⟨token, quoted, pos⟩
      else
        tokenScanAux terms bal cs (pos + 1) quote quoted
          (some (token.getD [] ++ [c])) (paren - 1)
    else if quote = none ∧ paren = 0 ∧ c ∈ terms then
      -- only unquoted terminators terminate the token
      .ok ⟨token, quoted, pos⟩
    else if quote.isSome ∨ pyIsSpace c = false ∨ (token.isSome ∧ bal) then
      -- append c to the token string
      tokenScanAux terms bal cs (pos + 1) quote quoted
        (some (token.getD [] ++ [c])) paren
    else if token.isSome then
      -- a space after any token characters is a terminator
      .ok ⟨token, quoted, pos⟩
    else
      tokenScanAux terms bal cs (pos + 1) quote quoted token paren

/-- A scanned-and-assembled token value: raw string, or the `int`- or
`float`-converted value. -/
inductive TokVal where
  | str (s : String)
  | int (n : Int)
  | float (f : PyFloat)
  deriving DecidableEq, Repr

/-- The conversion tail of `Lexer.Token` (source lines 438-450): only
non-empty unquoted tokens are converted, `int` attempted before `float`. -/
def convertTok (token : Option (List Char)) (quoted : Bool) (convert : Bool) :
    Option TokVal :=
  match token with
  | none => none
  | some cs =>
    let s := String.mk cs
    if convert ∧ cs ≠ [] ∧ quoted = false then
      match pyParseInt s with
      | some n => some (.int n)
      | none =>
        match pyParseFloat s with
        | some f => some (.float f)
        | none => some (.str s)
    else some (.str s)

/-- `Lexer.Token(terminators, balance_parens, space, convert)`. -/
def Lexer.Token (st : LexState) (terms : List Char) (bal : Bool) (space : Bool)
    (convert : Bool) : Except LexError (Option TokVal × LexState) :=
  match tokenScanAux terms bal st.rest st.pos none false none 0 with
  | .error q => .error (.unterminatedQuote q (Annotate st st.pos))
  | .ok out =>
    let st1 : LexState := { st with pos := out.pos }
    let st2 := if space then (Lexer.SkipSpace st1).2 else st1
    .ok (convertTok out.token out.quoted convert, st2)

/-! ## The argument-list parser (`Lexer.Args`, source lines 452-483) -/

/-- The loop of `Lexer.Args`: reads one balanced `,`/`)`-terminated token per
iteration, then expects `,` or `)`; a dangling comma or missing required
argument is a syntax error. -/
def Lexer.ArgsAux (convert : Bool) :
    Nat → LexState → Bool → List TokVal → Except LexError (List TokVal × LexState)
  | 0, _, _, _ => .error .outOfFuel
  | fuel + 1, st, required, args => do
    let here := st.pos
    let (arg, st) ← Lexer.Token st [',', ')'] true true convert
    let (endc, st) ← Lexer.IsCharacter st [')'] false false
    match arg with
    | some a =>
      if endc.isSome then .ok (args ++ [a], st)
      else do
        let (_, st) ← Lexer.IsCharacter st [','] false false
        Lexer.ArgsAux convert fuel st true (args ++ [a])
    | none =>
      if required ∨ endc = none then .error (.argExpected (Annotate st here))
      else .ok (args, st)

/-- `Lexer.Args(convert)`: parses a `,`-separated, `)`-terminated arg list,
the opening `(` already consumed. -/
def Lexer.Args (st : LexState) (convert : Bool) :
    Except LexError (List TokVal × LexState) :=
  Lexer.ArgsAux convert (st.expr.length + 1) st false []

/-! ## The key parser (`Lexer.Key`, source lines 485-541) -/

/-- One element of a parsed key, encoding the Python values: a name or
non-numeric index token (`str`), an array index (`int` — or `float` when the
bracket content coerces to a float), and `slice` for the Python `None`
produced by an empty `[]`. -/
inductive KeyTok where
  | str (s : String)
  | int (n : Int)
  | float (f : PyFloat)
  | slice
  deriving DecidableEq, Repr

/-- Converts the bracket-content token value to its parsed-key encoding
(`key.append(index)` with `index = None` for an empty `[]`). -/
def tokOfIndex : Option TokVal → KeyTok
  | none => .slice
  | some (.str s) => .str s
  | some (.int n) => .int n
  | some (.float f) => .float f

/-- Truthiness of the name token (`if name:`): a non-empty string. -/
def nameStr : Option TokVal → Option String
  | some (.str s) => if s = "" then none else some s
  | _ => none

/-- Outcome of the name-reading part of one `Key` loop iteration: `done` for
the single-`.` whole-resource break, `more` to continue with the suffixes. -/
inductive KeyStep where
  | done (out : List KeyTok × LexState)
  | more (key : List KeyTok) (st : LexState)

/-- The name-reading part of one `Key` loop iteration (source lines 510-524):
alias substitution only for a first segment not followed by `(`; otherwise
the single-`.` whole-resource case or a `Non-empty key name expected` error. -/
def keyNamePart (aliases : String → Option (List KeyTok)) (st : LexState)
    (key : List KeyTok) (here : Nat) (name : Option TokVal) :
    Except LexError KeyStep := do
  match nameStr name with
  | some s => do
    let (pc, st) ← Lexer.IsCharacter st ['('] true true
    if key = [] ∧ pc = none ∧ (aliases s).isSome then
      return .more (key ++ (aliases s).getD []) st
    else
      return .more (key ++ [.str s]) st
  | none => do
    let (br, st) ← Lexer.IsCharacter st ['['] true false
    if br.isSome then
      return .more key st
    else if key = [] then do
      let (dot, st) ← Lexer.IsCharacter st ['.'] false false
      if dot.isSome then
        if Lexer.EndOfInput st then
          return .done (key, st)
        else do
          let (res, st) ← Lexer.IsCharacter st RESERVED true true
          if res.isSome then return .done (key, st)
          else throw (.nonEmptyKeyNameExpected (Annotate st here))
      else throw (.nonEmptyKeyNameExpected (Annotate st here))
    else throw (.nonEmptyKeyNameExpected (Annotate st here))

/-- The `[...]` suffix loop of `Key` (source lines 530-534): each `[` reads a
`]`-terminated token with numeric conversion and appends the index/slice. -/
def Lexer.BracketLoop :
    Nat → LexState → List KeyTok → Except LexError (List KeyTok × LexState)
  | 0, _, _ => .error .outOfFuel
  | fuel + 1, st, key => do
    let (lb, st) ← Lexer.IsCharacter st ['['] false true
    if lb = none then .ok (key, st)
    else do
      let (index, st) ← Lexer.Token st [']'] false true true
      let (_, st) ← Lexer.IsCharacter st [']'] false false
      Lexer.BracketLoop fuel st (key ++ [tokOfIndex index])

/-- The loop of `Lexer.Key` (source lines 507-541): one iteration reads a
name (with optional alias substitution), then bracket suffixes, then either
consumes a `.` and continues or stops. -/
def Lexer.KeyAux (aliases : String → Option (List KeyTok)) :
    Nat → LexState → List KeyTok → Except LexError (List KeyTok × LexState)
  | 0, _, _ => .error .outOfFuel
  | fuel + 1, st, key => do
    if Lexer.EndOfInput st then .ok (key, st)
    else do
      let here := st.pos
      let (name, st) ← Lexer.Token st RESERVED false false false
      match ← keyNamePart aliases st key here name with
      | .done out => .ok out
      | .more key st => do
        if Lexer.EndOfInput st then .ok (key, st)
        else do
          let (rb, st) ← Lexer.IsCharacter st [']'] false false
          if rb.isSome then throw (.unmatchedBracket (Annotate st here))
          else do
            let (key, st) ← Lexer.BracketLoop fuel st key
            let (dot, st) ← Lexer.IsCharacter st ['.'] false true
            if dot = none then .ok (key, st)
            else if Lexer.EndOfInput st then
              -- dangling '.' is not allowed
              throw (.nonEmptyKeyNameExpected (Annotate st st.pos))
            else Lexer.KeyAux aliases fuel st key

/-- `Lexer.Key()`: parses a `.`-separated resource key with `[]`/`[NUMBER]`
suffixes, substituting a leading alias. -/
def Lexer.Key (st : LexState) (aliases : String → Option (List KeyTok)) :
    Except LexError (List KeyTok × LexState) :=
  Lexer.KeyAux aliases (st.expr.length + 1) st []

/-- The empty alias table of a default-constructed `Lexer`. -/
def noAliases : String → Option (List KeyTok) := fun _ => none

/-! ## The key renderer (`GetKeyName`, source lines 645-682) -/

/-- Replaces every occurrence of a character by a replacement string, as the
single-character `str.replace` calls of `GetKeyName`. -/
def replAll (pat : Char) (rep : List Char) : List Char → List Char
  | [] => []
  | c :: cs => (if c = pat then rep else [c]) ++ replAll pat rep cs

/-- Appends a string onto the last element (`parts[-1] += part`). -/
def appendLast : List String → String → List String
  | [], x => [x]
  | [a], x => [a ++ x]
  | a :: rest, x => a :: appendLast rest x

/-- Renders one name part: double-quoted with `\` and `"` escaped when it
contains a non-word character, bare otherwise. -/
def renderNamePart (s : String) : String :=
  if s.toList.any (fun c => isWordChar c = false) then
    String.mk ('"' :: replAll '"' ['\\', '"'] (replAll '\\' ['\\', '\\'] s.toList) ++ ['"'])
  else s

/-- The part-accumulating loop of `GetKeyName`; `none` models the Python
`TypeError` on a float key part (`re.search` on a non-string). -/
def getKeyNameAux : List KeyTok → List String → Option (List String)
  | [], parts => some parts
  | t :: rest, parts =>
    match t with
    | .slice =>
      if parts = [] then getKeyNameAux rest (parts ++ ["[]"])
      else getKeyNameAux rest (appendLast parts "[]")
    | .int n =>
      let p := String.mk ('[' :: intReprChars n ++ [']'])
      if parts = [] then getKeyNameAux rest (parts ++ [p])
      else getKeyNameAux rest (appendLast parts p)
    | .str s => getKeyNameAux rest (parts ++ [renderNamePart s])
    | .float _ => none

/-- Python `'.'.join(parts)`. -/
def joinDot : List String → String
  | [] => ""
  | [a] => a
  | a :: rest => a ++ "." ++ joinDot rest

/-- `GetKeyName(key)`: the string representation of a parsed key, the
inverse of `Lexer.Key`; an empty key renders as `.`. -/
def GetKeyName (key : List KeyTok) : Option String :=
  (getKeyNameAux key []).map
    (fun parts => if parts = [] then "." else joinDot parts)

/-! ## Abstract well-formed keys and the canonical writer
(the sub-language of spec section 4.2's grammar used to state the
round-trip law of claim C1) -/

/-- Canonical escaping of a double-quoted name: `\` and `"` are prefixed
with a backslash (the escaping `GetKeyName` produces and `Token` undoes). -/
def escName : List Char → List Char
  | [] => []
  | c :: cs => (if c = '\\' ∨ c = '"' then ['\\', c] else [c]) ++ escName cs

/-- Writes one name, either bare or double-quoted with escaping. -/
def writeName (name : List Char) (q : Bool) : List Char :=
  if q then '"' :: (escName name ++ ['"']) else name

/-- Writes one `[NUMBER]` or `[]` suffix. -/
def writeSub : Option Int → List Char
  | some n => '[' :: (intReprChars n ++ [']'])
  | none => ['[', ']']

/-- One segment of an abstract well-formed key: a name, its bracket
suffixes (`some n` for `[n]`, `none` for `[]`), and whether the name is
written double-quoted. -/
structure SegSpec where
  name : List Char
  subs : List (Option Int)
  quote : Bool
  deriving DecidableEq, Repr

/-- A segment is well formed when its name is non-empty and a bare name
consists of word characters only. -/
def ValidSeg (s : SegSpec) : Prop :=
  s.name ≠ [] ∧ (s.quote = false → s.name.all isWordChar = true)

instance (s : SegSpec) : Decidable (ValidSeg s) := by
  unfold ValidSeg; infer_instance

/-- A well-formed key: every segment well formed. -/
def ValidKey (ks : List SegSpec) : Prop := ∀ s ∈ ks, ValidSeg s

instance (ks : List SegSpec) : Decidable (ValidKey ks) := by
  unfold ValidKey; infer_instance

/-- Writes one full segment. -/
def writeSeg (s : SegSpec) : List Char :=
  writeName s.name s.quote ++ (s.subs.map writeSub).flatten

/-- Writes a non-empty `.`-separated segment list. -/
def writeSegs : List SegSpec → List Char
  | [] => []
  | [s] => writeSeg s
  | s :: rest => writeSeg s ++ '.' :: writeSegs rest

/-- Writes a well-formed key string; the empty key is the whole-resource
literal `.`. -/
def writeKey (ks : List SegSpec) : List Char :=
  if ks = [] then ['.'] else writeSegs ks

/-- The parsed-key token of one bracket suffix. -/
def subTok : Option Int → KeyTok
  | some n => .int n
  | none => .slice

/-- The parsed encoding of one segment, as `Lexer.Key` returns it. -/
def flattenSeg (s : SegSpec) : List KeyTok :=
  .str (String.mk s.name) :: s.subs.map subTok

/-- The parsed encoding of an abstract key. -/
def flattenKey (ks : List SegSpec) : List KeyTok := (ks.map flattenSeg).flatten

/-- Fuel sufficient for the `Key` loop on a written abstract key: one unit
per segment plus the bracket-loop need of each segment. -/
def keyFuel : List SegSpec → Nat
  | [] => 0
  | s :: more => 1 + max (s.subs.length + 1) (keyFuel more)

/-- The canonical quoting choice: double-quote exactly the names containing
a non-word character (what `GetKeyName` renders). -/
def canonSeg (s : SegSpec) : SegSpec :=
  { s with quote := s.name.any (fun c => isWordChar c = false) }

/-- The canonical form of an abstract key. -/
def canonKey (ks : List SegSpec) : List SegSpec := ks.map canonSeg

/-! ## Transform calls and the evaluator
(`_TransformCall`, `_Transform`, source lines 84-179) -/

/-- A runtime Python value as seen by the evaluator, plus `proj` for the
`ProjectionSpec` defaults object prepended as an invisible argument. -/
inductive Value where
  | none_
  | str (s : String)
  | int (n : Int)
  | float (f : PyFloat)
  | list (l : List Value)
  | proj

/-- Python truthiness (`if obj:`) of an embedded value. -/
def pyTruthy : Value → Bool
  | .none_ => false
  | .str s => s ≠ ""
  | .int n => n ≠ 0
  | .float f => match f with | .finite q => q ≠ 0 | _ => true
  | .list l => !l.isEmpty
  | .proj => true

/-- Modelled from the spec: `resource_property.IsListLike` (module
`resource_property` is imported by the source but is not under `src/`).
Per spec sections 3 and 4.4 a value is list-like when it is a list-like
collection whose elements a mapped transform applies to, so exactly the
`list` values of the embedding. -/
def IsListLike : Value → Bool
  | .list _ => true
  | _ => false

/-- Identity of a resolved transform function, distinguishing the three
special combinators compared by identity in `Lexer.Transform`
(`TransformAlways`, `TransformMap`, `TransformIf`). -/
inductive FuncTag where
  | always
  | map
  | cond
  | other (n : Nat)
  deriving DecidableEq, Repr

/-- A transform function from the symbol table: its identity tag, whether its
docstring requests the caller projection argument, whether it declares
default-valued parameters (`func_defaults`), and its call semantics
(positional args, keyword args). -/
structure FuncInfo where
  tag : FuncTag
  hasProjDoc : Bool
  hasDefaults : Bool
  run : List Value → List (String × Value) → Value

/-- `_TransformCall`: one parsed transform function call. -/
structure _TransformCall where
  name : String
  func : FuncInfo
  active : Option Int
  map_transform : Bool
  args : List Value
  kwargs : List (String × Value)
  restriction : Bool

/-- `_Transform`: the ordered list of `_TransformCall` objects with the
optional `if()` conditional expression. -/
structure _Transform where
  conditional : Option Value
  transforms : List _TransformCall

/-- `_Transform.Add`. -/
def _Transform.Add (t : _Transform) (call : _TransformCall) : _Transform :=
  { t with transforms := t.transforms ++ [call] }

/-- `_Transform.SetConditional`. -/
def _Transform.SetConditional (t : _Transform) (expr : Value) : _Transform :=
  { t with conditional := some expr }

/-- One iteration of the `_Transform.Evaluate` loop (source lines 167-178):
a list-mapped call applies per element of a list-like value; otherwise a
truthy value (or any value for a non-mapped call) is transformed, with
restriction calls invoked without the subject. -/
def evalStep (transform : _TransformCall) (obj : Value) : Value :=
  if transform.map_transform ∧ IsListLike obj then
    match obj with
    | .list items =>
      .list (items.map fun item =>
        transform.func.run (item :: transform.args) transform.kwargs)
    | _ => obj
  else if pyTruthy obj ∨ transform.map_transform = false then
    if transform.restriction then transform.func.run transform.args transform.kwargs
    else transform.func.run (obj :: transform.args) transform.kwargs
  else obj

/-- The fold of `_Transform.Evaluate` over the call list. -/
def evalList : List _TransformCall → Value → Value
  | [], obj => obj
  | tr :: rest, obj => evalList rest (evalStep tr obj)

/-- `_Transform.Evaluate(obj)`. -/
def _Transform.Evaluate (t : _Transform) (obj : Value) : Value :=
  evalList t.transforms obj

/-- The `_Transform.Evaluate` loop with the call list threaded through as
state: each iteration reads one call and rebinds only the local running
value, as no statement of the source loop stores into the call list. -/
def evalListSt : List _TransformCall → Value → List _TransformCall × Value
  | [], obj => ([], obj)
  | tr :: rest, obj =>
    let obj' := evalStep tr obj
    let r := evalListSt rest obj'
    (tr :: r.1, r.2)

/-- `_Transform.Evaluate` returning the (threaded) chain with the result. -/
def _Transform.EvaluateSt (t : _Transform) (obj : Value) : _Transform × Value :=
  let r := evalListSt t.transforms obj
  ({ t with transforms := r.1 }, r.2)

/-! ## The transform-call parser (`Lexer._ParseTransform` / `Lexer.Transform`,
source lines 543-642) -/

/-- Splits off the part of a string before/after the first `=`
(`str.partition`); `none` when there is no `=`. -/
def partEq : List Char → Option (List Char × List Char)
  | [] => none
  | c :: cs =>
    if c = '=' then some ([], cs)
    else (partEq cs).map (fun p => (c :: p.1, p.2))

/-- Keyword-argument insertion with dict overwrite semantics. -/
def kwInsert : List (String × Value) → String → Value → List (String × Value)
  | [], k, v => [(k, v)]
  | (k', v') :: rest, k, v =>
    if k' = k then (k', v) :: rest else (k', v') :: kwInsert rest k v

/-- Converts a raw argument token to the stored value (with `convert=False`
all argument tokens are strings). -/
def tokToValue : TokVal → Value
  | .str s => .str s
  | .int n => .int n
  | .float f => .float f

/-- Splits raw argument tokens into positional args and keyword args by
partitioning each on its first `=` (the `func_defaults` branch of
`_ParseTransform`). -/
def splitKwargs : List TokVal → List Value → List (String × Value) →
    List Value × List (String × Value)
  | [], args, kwargs => (args, kwargs)
  | .str s :: rest, args, kwargs =>
    match partEq s.toList with
    | some (k, v) => splitKwargs rest args (kwInsert kwargs (String.mk k) (.str (String.mk v)))
    | none => splitKwargs rest (args ++ [.str s]) kwargs
  | v :: rest, args, kwargs => splitKwargs rest (args ++ [tokToValue v]) kwargs

/-- `Lexer._ParseTransform(func_name, active, map_transform, restriction)`:
parses one call at the `(` after the function name, prepending the caller
projection when the docstring asks for it and separating keyword args only
when the function declares defaults. -/
def Lexer._ParseTransform (syms : String → Option FuncInfo) (st : LexState)
    (funcName : Option String) (active : Option Int) (mapT : Bool) (restr : Bool) :
    Except LexError (_TransformCall × LexState) := do
  let here := st.pos
  match funcName.bind syms with
  | none =>
    throw (.unknownTransformFunction (funcName.getD "None") (Annotate st here))
  | some func => do
    let args0 : List Value := if func.hasProjDoc then [.proj] else []
    if func.hasDefaults then do
      let (raw, st) ← Lexer.Args st false
      let (args, kwargs) := splitKwargs raw args0 []
      .ok (⟨funcName.getD "", func, active, mapT, args, kwargs, restr⟩, st)
    else do
      let (raw, st) ← Lexer.Args st false
      .ok (⟨funcName.getD "", func, active, mapT, args0 ++ raw.map tokToValue, [], restr⟩, st)

/-- Name of a single-element parsed key (`call.pop()` after the length-1
check of `Lexer.Transform`); `none` for a non-string element, which can never
match a symbol-table name. -/
def lastName : List KeyTok → Option String
  | [.str s] => some s
  | _ => none

/-- Joined display name (`'.'.join(call)`) used in an error message. -/
def joinedKeyName (key : List KeyTok) : String :=
  String.intercalate "." (key.map fun t => match t with | .str s => s | _ => "")

/-- The special-combinator step of the `Lexer.Transform` loop (source lines
612-628): `always()` clears the active level, `map()` sets the sticky
per-element flag, `if()` stores its single argument as the conditional, and
any other call is appended (resetting the map flag). -/
def transformStep (transform : _TransformCall) (calls : _Transform)
    (active : Option Int) (mapT : Bool) (st : LexState) (here : Nat) :
    Except LexError (_Transform × Option Int × Bool) :=
  if transform.func.tag = .always then .ok (calls, none, mapT)
  else if transform.func.tag = .map then .ok (calls, active, true)
  else if transform.func.tag = .cond then
    if transform.args.length ≠ 1 then
      .error (.conditionalFilterExpected (Annotate st here))
    else .ok (calls.SetConditional (transform.args.headD .none_), active, mapT)
  else .ok (calls.Add transform, active, false)

/-- The chain-continuation step of the `Lexer.Transform` loop (source lines
629-641): stops without a `.`; otherwise the next segment must be a
single-name key immediately followed by `(`. Returns the next function name,
the position for error annotation, and the state after the consumed `(`. -/
def Lexer.TransformNext (aliases : String → Option (List KeyTok)) (st : LexState) :
    Except LexError (Option (Option String × Nat × LexState)) := do
  let (dot, st) ← Lexer.IsCharacter st ['.'] false true
  if dot = none then .ok none
  else do
    let (call, st) ← Lexer.Key st aliases
    let here := st.pos
    let (op, st) ← Lexer.IsCharacter st ['('] false false
    if op = none then throw (.transformFunctionExpected (Annotate st here))
    else if call.length ≠ 1 then
      throw (.unknownTransformFunction (joinedKeyName call) (Annotate st here))
    else .ok (some (lastName call, here, st))

/-- The loop of `Lexer.Transform` (source lines 604-642): parses calls
chained by `.`, consuming the caller restriction flag with the first call
(`restriction = False` after each parse), handling `always()`/`map()`/`if()`
specially, and requiring each chained segment to be a single name followed
by `(`. -/
def Lexer.TransformAux (syms : String → Option FuncInfo)
    (aliases : String → Option (List KeyTok)) :
    Nat → LexState → Option String → Option Int → Bool → Bool → _Transform → Nat →
    Except LexError (_Transform × LexState)
  | 0, _, _, _, _, _, _, _ => .error .outOfFuel
  | fuel + 1, st, funcName, active, mapT, restr, calls, here => do
    let (transform, st) ← Lexer._ParseTransform syms st funcName active mapT restr
    -- restriction = False: every later call is parsed without the flag
    let (calls, active, mapT) ← transformStep transform calls active mapT st here
    match ← Lexer.TransformNext aliases st with
    | none => .ok (calls, st)
    | some (funcName', here', st') =>
      Lexer.TransformAux syms aliases fuel st' funcName' active mapT false calls here'

/-- `Lexer.Transform(func_name, active, restriction)`: the cursor at the `(`
just after the first transform name. -/
def Lexer.Transform (st : LexState) (syms : String → Option FuncInfo)
    (aliases : String → Option (List KeyTok)) (funcName : String)
    (active : Option Int) (restr : Bool) : Except LexError (_Transform × LexState) :=
  Lexer.TransformAux syms aliases (st.expr.length + 1) st (some funcName) active
    false restr ⟨none, []⟩ st.pos

/-! ## Concrete symbol tables and chains used by the claim statements -/

/-- ASCII uppercase of one character (example-transform helper). -/
def upChar : Char → Char
  | 'a' => 'A' | 'b' => 'B' | 'c' => 'C' | 'd' => 'D' | 'e' => 'E'
  | 'f' => 'F' | 'g' => 'G' | 'h' => 'H' | 'i' => 'I' | 'j' => 'J'
  | 'k' => 'K' | 'l' => 'L' | 'm' => 'M' | 'n' => 'N' | 'o' => 'O'
  | 'p' => 'P' | 'q' => 'Q' | 'r' => 'R' | 's' => 'S' | 't' => 'T'
  | 'u' => 'U' | 'v' => 'V' | 'w' => 'W' | 'x' => 'X' | 'y' => 'Y'
  | 'z' => 'Z' | c => c

/-- ASCII uppercase of a string (example-transform helper). -/
def pyUpper (s : String) : String := String.mk (s.toList.map upChar)

/-- An ordinary transform function that uppercases a string subject. -/
def exUpper : FuncInfo :=
  ⟨.other 0, false, false,
   fun args _ => match args with | .str s :: _ => .str (pyUpper s) | _ => .none_⟩

/-- The `map` combinator entry (identity `TransformMap`). -/
def exMapFn : FuncInfo := ⟨.map, false, false, fun _ _ => .none_⟩

/-- The `always` combinator entry (identity `TransformAlways`). -/
def exAlwaysFn : FuncInfo := ⟨.always, false, false, fun _ _ => .none_⟩

/-- The `if` combinator entry (identity `TransformIf`). -/
def exIfFn : FuncInfo := ⟨.cond, false, false, fun _ _ => .none_⟩

/-- A concrete symbol table with `upper`, `map`, `always` and `if`. -/
def exSyms : String → Option FuncInfo := fun s =>
  if s = "upper" then some exUpper
  else if s = "map" then some exMapFn
  else if s = "always" then some exAlwaysFn
  else if s = "if" then some exIfFn
  else none

/-- A concrete alias table binding `x` to the key path `a.b`. -/
def exAliases : String → Option (List KeyTok) :=
  fun s => if s = "x" then some [KeyTok.str "a", KeyTok.str "b"] else none

/-- A concrete list-mapped call of `upper` (as parsed from `map().upper()`). -/
def exMapUpperCall : _TransformCall := ⟨"upper", exUpper, some 0, true, [], [], false⟩

/-- The chain parsed from `map().upper()` (cursor after `map(`). -/
def exMapUpperChain : Except LexError (_Transform × LexState) :=
  Lexer.Transform ⟨"map().upper()".toList, 4⟩ exSyms noAliases "map" (some 0) false

/-- Checks that every call after the first in a parsed chain has the
restriction flag cleared (trivially true on a parse error). -/
def tailRestrictionOk (r : Except LexError (_Transform × LexState)) : Bool :=
  match r with
  | .ok (tr, _) => (tr.transforms.drop 1).all (fun c => c.restriction = false)
  | .error _ => true

end ResourceLex

namespace ResourceLex

/-! ## Basic lemmas -/

theorem except_bind_ok {α β ε : Type} (a : α) (f : α → Except ε β) :
    (Except.ok a >>= f) = f a := rfl

theorem except_bind_error {α β ε : Type} (e : ε) (f : α → Except ε β) :
    ((Except.error e : Except ε α) >>= f) = Except.error e := rfl

theorem evalListSt_eq (l : List _TransformCall) (obj : Value) :
    evalListSt l obj = (l, evalList l obj) := by
  induction l generalizing obj with
  | nil => rfl
  | cons tr rest ih => simp [evalListSt, evalList, ih]

/-! ## State and character-class lemmas for the round-trip law -/

theorem rest_mk (expr : List Char) (p : Nat) :
    LexState.rest ⟨expr, p⟩ = expr.drop p := rfl

theorem drop_after {expr l rest : List Char} {p : Nat}
    (h : expr.drop p = l ++ rest) : expr.drop (p + l.length) = rest := by
  rw [← List.drop_drop, h, List.drop_left]

theorem string_toList_mk (l : List Char) : (String.mk l).toList = l := rfl

theorem smk_append (a b : List Char) :
    String.mk (a ++ b) = String.mk a ++ String.mk b := rfl

theorem endOfInput_true {expr : List Char} {p : Nat} (h : expr.drop p = []) :
    Lexer.EndOfInput ⟨expr, p⟩ = true := by
  have := List.drop_eq_nil_iff.mp h
  simpa [Lexer.EndOfInput]

theorem endOfInput_false {expr : List Char} {p : Nat} {c : Char} {cs : List Char}
    (h : expr.drop p = c :: cs) : Lexer.EndOfInput ⟨expr, p⟩ = false := by
  have hlen := congrArg List.length h
  rw [List.length_drop] at hlen
  simp only [List.length_cons] at hlen
  simp only [Lexer.EndOfInput, decide_eq_false_iff_not, not_le]
  omega

theorem isCharacter_hit {expr : List Char} {p : Nat} {c : Char} {cs : List Char}
    {chars : List Char} (eoiOk : Bool) (h : expr.drop p = c :: cs)
    (hc : c ∈ chars) :
    Lexer.IsCharacter ⟨expr, p⟩ chars false eoiOk
      = .ok (some c, ⟨expr, p + 1⟩) := by
  unfold Lexer.IsCharacter
  rw [rest_mk, h]
  simp [hc]

theorem isCharacter_peek_hit {expr : List Char} {p : Nat} {c : Char} {cs : List Char}
    {chars : List Char} (eoiOk : Bool) (h : expr.drop p = c :: cs)
    (hc : c ∈ chars) :
    Lexer.IsCharacter ⟨expr, p⟩ chars true eoiOk = .ok (some c, ⟨expr, p⟩) := by
  unfold Lexer.IsCharacter
  rw [rest_mk, h]
  simp [hc]

theorem isCharacter_miss {expr : List Char} {p : Nat} {c : Char} {cs : List Char}
    {chars : List Char} (peek eoiOk : Bool) (h : expr.drop p = c :: cs)
    (hc : c ∉ chars) :
    Lexer.IsCharacter ⟨expr, p⟩ chars peek eoiOk = .ok (none, ⟨expr, p⟩) := by
  unfold Lexer.IsCharacter
  rw [rest_mk, h]
  simp [hc]

theorem isCharacter_eoi {expr : List Char} {p : Nat} {chars : List Char}
    {peek eoiOk : Bool} (h : expr.drop p = []) (hok : peek = true ∨ eoiOk = true) :
    Lexer.IsCharacter ⟨expr, p⟩ chars peek eoiOk = .ok (none, ⟨expr, p⟩) := by
  unfold Lexer.IsCharacter
  rw [rest_mk, h]
  rcases hok with hok | hok <;> simp [hok]

theorem skipSpace_nil {expr : List Char} {p : Nat} (h : expr.drop p = []) :
    Lexer.SkipSpace ⟨expr, p⟩ = (false, ⟨expr, p⟩) := by
  unfold Lexer.SkipSpace
  rw [rest_mk, h]
  rfl

theorem skipSpace_head {expr : List Char} {p : Nat} {c : Char} {cs : List Char}
    (h : expr.drop p = c :: cs) (hc : pyIsSpace c = false) :
    Lexer.SkipSpace ⟨expr, p⟩ = (true, ⟨expr, p⟩) := by
  unfold Lexer.SkipSpace
  rw [rest_mk, h]
  simp [skipSpaceAux, hc]

theorem word_char_facts {c : Char} (h : isWordChar c = true) :
    c ≠ '\\' ∧ c ∉ QUOTES ∧ c ∉ RESERVED ∧ pyIsSpace c = false := by
  refine ⟨?_, ?_, ?_, ?_⟩
  · intro hc; subst hc; exact absurd h (by decide)
  · intro hq; fin_cases hq <;> exact absurd h (by decide)
  · intro hr; fin_cases hr <;> exact absurd h (by decide)
  · by_contra hs
    simp only [Bool.not_eq_false, pyIsSpace] at hs
    have hm : c ∈ spaceChars := by simpa using hs
    fin_cases hm <;> exact absurd h (by decide)

theorem digit_char_facts {c : Char} (h : c.isDigit = true) :
    c ≠ '\\' ∧ c ∉ QUOTES ∧ pyIsSpace c = false ∧ c ≠ ']' := by
  refine ⟨?_, ?_, ?_, ?_⟩
  · intro hc; subst hc; exact absurd h (by decide)
  · intro hq; fin_cases hq <;> exact absurd h (by decide)
  · by_contra hs
    simp only [Bool.not_eq_false, pyIsSpace] at hs
    have hm : c ∈ spaceChars := by simpa using hs
    fin_cases hm <;> exact absurd h (by decide)
  · intro hc; subst hc; exact absurd h (by decide)

theorem reserved_facts {c : Char} (h : c ∈ RESERVED) :
    c ∉ QUOTES ∧ c ≠ '\\' := by
  fin_cases h <;> exact ⟨by decide, by decide⟩

/-! ## Token-scanner lemmas -/

theorem scan_stop {terms : List Char} {rest : List Char} (pos : Nat) (quoted : Bool)
    (tok : Option (List Char))
    (h : rest = [] ∨ ∃ c cs, rest = c :: cs ∧ c ∈ terms ∧ c ∉ QUOTES ∧ c ≠ '\\') :
    tokenScanAux terms false rest pos none quoted tok 0 = .ok ⟨tok, quoted, pos⟩ := by
  rcases h with rfl | ⟨c, cs, rfl, hc, hq, hne⟩
  · exact tokenScanAux.eq_2 ..
  · rw [tokenScanAux.eq_4 terms false pos none quoted tok 0 c cs
      (fun _ _ hc' _ => hne hc')]
    simp [hq, hc]

theorem scan_append_char {terms : List Char} {c : Char} (cs : List Char)
    (pos : Nat) (quoted : Bool) (tok : Option (List Char))
    (hne : c ≠ '\\') (hq : c ∉ QUOTES) (ht : c ∉ terms) (hs : pyIsSpace c = false) :
    tokenScanAux terms false (c :: cs) pos none quoted tok 0
      = tokenScanAux terms false cs (pos + 1) none quoted
          (some (tok.getD [] ++ [c])) 0 := by
  rw [tokenScanAux.eq_4 terms false pos none quoted tok 0 c cs
    (fun _ _ hc' _ => hne hc')]
  simp [hq, ht, hs]

theorem scan_append_run {terms : List Char} {l : List Char} (hl : l ≠ [])
    (hall : ∀ c ∈ l, c ≠ '\\' ∧ c ∉ QUOTES ∧ c ∉ terms ∧ pyIsSpace c = false) :
    ∀ (rest : List Char) (pos : Nat) (quoted : Bool) (tok : Option (List Char)),
    tokenScanAux terms false (l ++ rest) pos none quoted tok 0
      = tokenScanAux terms false rest (pos + l.length) none quoted
          (some (tok.getD [] ++ l)) 0 := by
  induction l with
  | nil => exact absurd rfl hl
  | cons c l ih =>
    intro rest pos quoted tok
    obtain ⟨h1, h2, h3, h4⟩ := hall c (by simp)
    rw [List.cons_append, scan_append_char (l ++ rest) pos quoted tok h1 h2 h3 h4]
    cases l with
    | nil => simp
    | cons c2 l2 =>
      rw [ih (by simp) (fun c hc => hall c (by simp [hc])) rest (pos + 1) quoted
        (some (tok.getD [] ++ [c]))]
      have hpos : pos + 1 + (c2 :: l2).length = pos + (c :: c2 :: l2).length := by
        simp; omega
      have htok : tok.getD [] ++ [c] ++ (c2 :: l2) = tok.getD [] ++ (c :: c2 :: l2) := by
        simp
      rw [Option.getD_some, hpos, htok]

theorem scan_open_quote {terms : List Char} (cs : List Char) (pos : Nat)
    (quoted : Bool) (tok : Option (List Char)) :
    tokenScanAux terms false ('"' :: cs) pos none quoted tok 0
      = tokenScanAux terms false cs (pos + 1) (some '"') true (some (tok.getD [])) 0 := by
  rw [tokenScanAux.eq_4 terms false pos none quoted tok 0 '"' cs
    (fun _ _ hc' _ => by simp at hc')]
  simp [QUOTES]

theorem scan_close_quote {terms : List Char} (cs : List Char) (pos : Nat)
    (tok : List Char) :
    tokenScanAux terms false ('"' :: cs) pos (some '"') true (some tok) 0
      = tokenScanAux terms false cs (pos + 1) none true (some tok) 0 := by
  rw [tokenScanAux.eq_4 terms false pos (some '"') true (some tok) 0 '"' cs
    (fun _ _ hc' _ => by simp at hc')]
  simp

theorem scan_inquote_char {terms : List Char} {c : Char} (cs : List Char)
    (pos : Nat) (tok : List Char) (hne : c ≠ '\\') (hqc : c ≠ '"') :
    tokenScanAux terms false (c :: cs) pos (some '"') true (some tok) 0
      = tokenScanAux terms false cs (pos + 1) (some '"') true (some (tok ++ [c])) 0 := by
  rw [tokenScanAux.eq_4 terms false pos (some '"') true (some tok) 0 c cs
    (fun _ _ hc' _ => hne hc')]
  simp [hqc]

theorem scan_inquote_esc {terms : List Char} {c : Char} (cs : List Char)
    (pos : Nat) (tok : List Char) (hc : c = '\\' ∨ c = '"') :
    tokenScanAux terms false ('\\' :: c :: cs) pos (some '"') true (some tok) 0
      = tokenScanAux terms false cs (pos + 2) (some '"') true (some (tok ++ [c])) 0 := by
  rw [tokenScanAux.eq_3]
  rcases hc with rfl | rfl <;> simp

theorem scan_inquote_run {terms : List Char} (nm : List Char) :
    ∀ (cs : List Char) (pos : Nat) (tok : List Char),
    tokenScanAux terms false (escName nm ++ cs) pos (some '"') true (some tok) 0
      = tokenScanAux terms false cs (pos + (escName nm).length) (some '"') true
          (some (tok ++ nm)) 0 := by
  induction nm with
  | nil => intro cs pos tok; simp [escName]
  | cons c nm ih =>
    intro cs pos tok
    by_cases hc : c = '\\' ∨ c = '"'
    · have hesc : escName (c :: nm) = '\\' :: c :: escName nm := by
        simp [escName, hc]
      rw [hesc, List.cons_append, List.cons_append,
        scan_inquote_esc (escName nm ++ cs) pos tok hc, ih cs (pos + 2) (tok ++ [c])]
      have hpos : pos + 2 + (escName nm).length = pos + ('\\' :: c :: escName nm).length := by
        simp; omega
      rw [hpos]
      simp
    · push_neg at hc
      have hesc : escName (c :: nm) = c :: escName nm := by
        simp [escName, hc.1, hc.2]
      rw [hesc, List.cons_append,
        scan_inquote_char (escName nm ++ cs) pos tok hc.1 hc.2, ih cs (pos + 1) (tok ++ [c])]
      have hpos : pos + 1 + (escName nm).length = pos + (c :: escName nm).length := by
        simp; omega
      rw [hpos]
      simp

theorem scan_writeName (nm : List Char) (q : Bool) (rest : List Char) (pos : Nat)
    (hv : nm ≠ []) (hbare : q = false → nm.all isWordChar = true)
    (hstop : rest = [] ∨ ∃ c cs, rest = c :: cs ∧ c ∈ RESERVED) :
    tokenScanAux RESERVED false (writeName nm q ++ rest) pos none false none 0
      = .ok ⟨some nm, q, pos + (writeName nm q).length⟩ := by
  have hstop' : rest = [] ∨
      ∃ c cs, rest = c :: cs ∧ c ∈ RESERVED ∧ c ∉ QUOTES ∧ c ≠ '\\' := by
    rcases hstop with rfl | ⟨c, cs, rfl, hc⟩
    · exact Or.inl rfl
    · exact Or.inr ⟨c, cs, rfl, hc, (reserved_facts hc).1, (reserved_facts hc).2⟩
  cases q with
  | false =>
    have hall : ∀ c ∈ nm, c ≠ '\\' ∧ c ∉ QUOTES ∧ c ∉ RESERVED ∧ pyIsSpace c = false := by
      intro c hc
      have hw : isWordChar c = true := by
        have := hbare rfl
        rw [List.all_eq_true] at this
        exact this c hc
      exact word_char_facts hw
    rw [show writeName nm false = nm from rfl, scan_append_run hv hall rest pos false none,
      scan_stop (pos + nm.length) false (some (Option.getD none [] ++ nm)) hstop']
    simp
  | true =>
    have hw : writeName nm true = '"' :: (escName nm ++ ['"']) := rfl
    rw [hw, List.cons_append, scan_open_quote _ pos false none, List.append_assoc,
      List.singleton_append,
      scan_inquote_run nm ('"' :: rest) (pos + 1) (Option.getD none []),
      scan_close_quote rest (pos + 1 + (escName nm).length) _,
      scan_stop _ true _ hstop']
    have : pos + 1 + (escName nm).length + 1 = pos + ('"' :: (escName nm ++ ['"'])).length := by
      simp
      omega
    rw [this]
    simp

/-! ## Decimal round-trip lemmas -/

theorem digitChar_isDigit {m : Nat} (h : m < 10) : (digitChar m).isDigit = true := by
  interval_cases m <;> decide

theorem digitVal_digitChar {m : Nat} (h : m < 10) : digitVal (digitChar m) = m := by
  interval_cases m <;> decide

theorem natDecAux_digits {fuel n : Nat} : ∀ c ∈ natDecAux fuel n, c.isDigit = true := by
  induction fuel generalizing n with
  | zero => intro c hc; simp [natDecAux] at hc
  | succ f ih =>
    intro c hc
    by_cases hn : n = 0
    · simp [natDecAux, hn] at hc
    · simp only [natDecAux, hn, if_false, List.mem_append, List.mem_singleton] at hc
      rcases hc with hc | rfl
      · exact ih c hc
      · exact digitChar_isDigit (Nat.mod_lt _ (by norm_num))

theorem natDec_digits {n : Nat} : ∀ c ∈ natDec n, c.isDigit = true := by
  intro c hc
  by_cases hn : n = 0
  · simp [natDec, hn] at hc; subst hc; decide
  · simp only [natDec, hn, if_false] at hc
    exact natDecAux_digits c hc

theorem foldl_natDecAux (fuel : Nat) :
    ∀ (n acc : Nat), n ≤ fuel →
    List.foldl (fun a c => a * 10 + digitVal c) acc (natDecAux fuel n)
      = acc * 10 ^ (natDecAux fuel n).length + n := by
  induction fuel with
  | zero =>
    intro n acc h
    have : n = 0 := Nat.le_zero.mp h
    simp [natDecAux, this]
  | succ f ih =>
    intro n acc h
    by_cases hn : n = 0
    · simp [natDecAux, hn]
    · simp only [natDecAux, hn, if_false]
      rw [List.foldl_append]
      have hdiv : n / 10 ≤ f := by
        have := Nat.div_lt_self (Nat.pos_of_ne_zero hn) (by norm_num : (1:Nat) < 10)
        omega
      rw [ih (n / 10) acc hdiv]
      simp only [List.foldl_cons, List.foldl_nil, List.length_append,
        List.length_singleton]
      rw [digitVal_digitChar (Nat.mod_lt _ (by norm_num))]
      rw [pow_succ, ← Nat.mul_assoc]
      have hmod := Nat.div_add_mod n 10
      set A := acc * 10 ^ (natDecAux f (n / 10)).length with hA
      omega

theorem digitsVal_natDec (n : Nat) : digitsVal (natDec n) = n := by
  by_cases hn : n = 0
  · subst hn; decide
  · simp only [natDec, hn, if_false, digitsVal]
    rw [foldl_natDecAux n n 0 (le_refl n)]
    simp

theorem natDec_ne_nil (n : Nat) : natDec n ≠ [] := by
  by_cases hn : n = 0
  · subst hn; decide
  · simp only [natDec, hn, if_false]
    cases n with
    | zero => exact absurd rfl hn
    | succ m => simp [natDecAux]

theorem stripWs_eq_self {l : List Char} (h : ∀ c ∈ l, pyIsSpace c = false) :
    stripWs l = l := by
  unfold stripWs
  have h1 : l.dropWhile pyIsSpace = l := by
    cases hl : l with
    | nil => rfl
    | cons c cs =>
      rw [List.dropWhile_cons]
      have := h c (by rw [hl]; simp)
      simp [this]
  rw [h1]
  have h2 : l.reverse.dropWhile pyIsSpace = l.reverse := by
    cases hl : l.reverse with
    | nil => rfl
    | cons c cs =>
      rw [List.dropWhile_cons]
      have hc : c ∈ l := by
        have : c ∈ l.reverse := by rw [hl]; simp
        simpa using this
      have := h c hc
      simp [this]
  rw [h2, List.reverse_reverse]

theorem digits_not_space {l : List Char} (h : ∀ c ∈ l, c.isDigit = true) :
    ∀ c ∈ l, pyIsSpace c = false :=
  fun c hc => (digit_char_facts (h c hc)).2.2.1

theorem digitsToNat?_natDec (n : Nat) : digitsToNat? (natDec n) = some n := by
  unfold digitsToNat?
  rw [if_pos ⟨natDec_ne_nil n, List.all_eq_true.mpr (fun c hc => natDec_digits c hc)⟩,
    digitsVal_natDec]

theorem pyParseInt_intRepr (n : Int) :
    pyParseInt (String.mk (intReprChars n)) = some n := by
  unfold pyParseInt
  rw [string_toList_mk]
  by_cases hn : n < 0
  · have hrepr : intReprChars n = '-' :: natDec n.natAbs := by
      simp [intReprChars, hn]
    have hns : ∀ c ∈ '-' :: natDec n.natAbs, pyIsSpace c = false := by
      intro c hc
      rcases List.mem_cons.mp hc with rfl | hc
      · decide
      · exact (digit_char_facts (natDec_digits c hc)).2.2.1
    rw [hrepr, stripWs_eq_self hns]
    split
    · rename_i ds heq
      injection heq with h1 h2
      exact absurd h1 (by decide)
    · rename_i ds heq
      injection heq with h1 h2
      rw [← h2, digitsToNat?_natDec]
      simp only [Option.map_some', Option.some.injEq, Int.ofNat_eq_natCast]
      omega
    · rename_i h1 h2
      exact absurd rfl (h2 (natDec n.natAbs))
  · have hrepr : intReprChars n = natDec n.natAbs := by
      simp [intReprChars, hn]
    rw [hrepr, stripWs_eq_self (digits_not_space (fun c hc => natDec_digits c hc))]
    split
    · rename_i ds heq
      have hp : ('+') ∈ natDec n.natAbs := by rw [heq]; simp
      exact absurd (natDec_digits _ hp) (by decide)
    · rename_i ds heq
      have hp : ('-') ∈ natDec n.natAbs := by rw [heq]; simp
      exact absurd (natDec_digits _ hp) (by decide)
    · rw [digitsToNat?_natDec]
      simp only [Option.map_some', Option.some.injEq, Int.ofNat_eq_natCast]
      omega

/-! ## Token-level lemmas -/

theorem token_eq_of_scan {expr : List Char} {p : Nat} {terms : List Char}
    {bal space convert : Bool} {out : ScanOut}
    (h : tokenScanAux terms bal (expr.drop p) p none false none 0 = .ok out) :
    Lexer.Token ⟨expr, p⟩ terms bal space convert
      = .ok (convertTok out.token out.quoted convert,
             if space then (Lexer.SkipSpace ⟨expr, out.pos⟩).2 else ⟨expr, out.pos⟩) := by
  unfold Lexer.Token
  rw [rest_mk, h]

theorem token_writeName {expr : List Char} {p : Nat} {nm : List Char} {q : Bool}
    {rest : List Char} (hdrop : expr.drop p = writeName nm q ++ rest)
    (hv : nm ≠ []) (hbare : q = false → nm.all isWordChar = true)
    (hstop : rest = [] ∨ ∃ c cs, rest = c :: cs ∧ c ∈ RESERVED) :
    Lexer.Token ⟨expr, p⟩ RESERVED false false false
      = .ok (some (.str (String.mk nm)), ⟨expr, p + (writeName nm q).length⟩) := by
  rw [token_eq_of_scan (by rw [hdrop, scan_writeName nm q rest p hv hbare hstop])]
  rw [if_neg (by simp)]
  rfl

theorem intRepr_scan_facts (n : Int) :
    ∀ c ∈ intReprChars n, c ≠ '\\' ∧ c ∉ QUOTES ∧ c ∉ [']'] ∧ pyIsSpace c = false := by
  intro c hc
  have hdm : c.isDigit = true ∨ c = '-' := by
    unfold intReprChars at hc
    split at hc
    · rcases List.mem_cons.mp hc with rfl | hc
      · exact Or.inr rfl
      · exact Or.inl (natDec_digits c hc)
    · exact Or.inl (natDec_digits c hc)
  rcases hdm with hd | rfl
  · obtain ⟨h1, h2, h3, h4⟩ := digit_char_facts hd
    exact ⟨h1, h2, by simpa using h4, h3⟩
  · exact ⟨by decide, by decide, by decide, by decide⟩

theorem intRepr_ne_nil (n : Int) : intReprChars n ≠ [] := by
  unfold intReprChars
  split
  · simp
  · exact natDec_ne_nil _

theorem convertTok_int {cs : List Char} {n : Int} (hne : cs ≠ [])
    (h : pyParseInt (String.mk cs) = some n) :
    convertTok (some cs) false true = some (.int n) := by
  unfold convertTok
  simp [hne, h]

theorem token_index_some {expr : List Char} {p : Nat} {rest : List Char} (n : Int)
    (hdrop : expr.drop p = intReprChars n ++ ']' :: rest) :
    Lexer.Token ⟨expr, p⟩ [']'] false true true
      = .ok (some (.int n), ⟨expr, p + (intReprChars n).length⟩) := by
  have hscan : tokenScanAux [']'] false (expr.drop p) p none false none 0
      = .ok ⟨some (Option.getD none [] ++ intReprChars n), false,
             p + (intReprChars n).length⟩ := by
    rw [hdrop,
      scan_append_run (intRepr_ne_nil n) (intRepr_scan_facts n) (']' :: rest) p false none,
      scan_stop (p + (intReprChars n).length) false _
        (Or.inr ⟨']', rest, rfl, by decide, by decide, by decide⟩)]
  rw [token_eq_of_scan hscan]
  have hdrop2 : expr.drop (p + (intReprChars n).length) = ']' :: rest :=
    drop_after hdrop
  rw [if_pos rfl, skipSpace_head hdrop2 (by decide)]
  show Except.ok (convertTok (some (intReprChars n)) false true,
      ({ expr := expr, pos := p + (intReprChars n).length } : LexState))
    = Except.ok (some (TokVal.int n), { expr := expr, pos := p + (intReprChars n).length })
  rw [convertTok_int (intRepr_ne_nil n) (pyParseInt_intRepr n)]

theorem token_index_none {expr : List Char} {p : Nat} {rest : List Char}
    (hdrop : expr.drop p = ']' :: rest) :
    Lexer.Token ⟨expr, p⟩ [']'] false true true = .ok (none, ⟨expr, p⟩) := by
  have hscan : tokenScanAux [']'] false (expr.drop p) p none false none 0
      = .ok ⟨none, false, p⟩ := by
    rw [hdrop,
      scan_stop p false none (Or.inr ⟨']', rest, rfl, by decide, by decide, by decide⟩)]
  rw [token_eq_of_scan hscan]
  rw [if_pos rfl, skipSpace_head hdrop (by decide)]
  rfl

theorem keyNamePart_name {expr : List Char} {p : Nat} (key : List KeyTok)
    (here : Nat) {nm : List Char} (hnm : nm ≠ [])
    (hnext : expr.drop p = [] ∨ ∃ c cs, expr.drop p = c :: cs ∧ c ≠ '(') :
    keyNamePart noAliases ⟨expr, p⟩ key here (some (.str (String.mk nm)))
      = .ok (.more (key ++ [.str (String.mk nm)]) ⟨expr, p⟩) := by
  have hname : nameStr (some (.str (String.mk nm))) = some (String.mk nm) := by
    show (if String.mk nm = "" then none else some (String.mk nm)) = some (String.mk nm)
    rw [if_neg]
    intro hs
    exact hnm (by simpa using congrArg String.toList hs)
  unfold keyNamePart
  rw [hname]
  have hpc : Lexer.IsCharacter ⟨expr, p⟩ ['('] true true = .ok (none, ⟨expr, p⟩) := by
    rcases hnext with hnil | ⟨c, cs, hcons, hc⟩
    · exact isCharacter_eoi hnil (Or.inl rfl)
    · exact isCharacter_miss true true hcons (by simpa using hc)
  rw [hpc]
  simp only [Bind.bind, Except.bind, noAliases, Option.isSome_none, Bool.false_eq_true,
    and_false, if_false]
  rfl

/-! ## Key-parser lemmas -/

theorem bracketLoop_writeSubs (subs : List (Option Int)) :
    ∀ (fuel : Nat) (expr : List Char) (p : Nat) (key : List KeyTok) (rest : List Char),
    subs.length + 1 ≤ fuel →
    expr.drop p = (subs.map writeSub).flatten ++ rest →
    (rest = [] ∨ ∃ c cs, rest = c :: cs ∧ c ≠ '[') →
    Lexer.BracketLoop fuel ⟨expr, p⟩ key
      = .ok (key ++ subs.map subTok,
             ⟨expr, p + ((subs.map writeSub).flatten).length⟩) := by
  induction subs with
  | nil =>
    intro fuel expr p key rest hfuel hdrop hstop
    obtain ⟨f, rfl⟩ : ∃ f, fuel = f + 1 := ⟨fuel - 1, by omega⟩
    unfold Lexer.BracketLoop
    simp only [List.map_nil, List.flatten_nil, List.nil_append] at hdrop
    have hlb : Lexer.IsCharacter ⟨expr, p⟩ ['['] false true = .ok (none, ⟨expr, p⟩) := by
      rcases hstop with rfl | ⟨c, cs, hcons, hc⟩
      · exact isCharacter_eoi hdrop (Or.inr rfl)
      · exact isCharacter_miss false true (hdrop.trans hcons) (by simpa using hc)
    rw [hlb]
    simp [Bind.bind, Except.bind]
  | cons sub subs ih =>
    intro fuel expr p key rest hfuel hdrop hstop
    obtain ⟨f, rfl⟩ : ∃ f, fuel = f + 1 := ⟨fuel - 1, by omega⟩
    unfold Lexer.BracketLoop
    cases sub with
    | some n =>
      have hdrop1 : expr.drop p
          = '[' :: (intReprChars n ++ ']' :: ((subs.map writeSub).flatten ++ rest)) := by
        rw [hdrop]
        simp [writeSub]
      rw [isCharacter_hit true hdrop1 (by decide)]
      simp only [except_bind_ok]
      rw [if_neg (by simp)]
      have hdrop2 : expr.drop (p + 1)
          = intReprChars n ++ ']' :: ((subs.map writeSub).flatten ++ rest) := by
        have := drop_after (l := ['[']) (by simpa using hdrop1)
        simpa using this
      rw [token_index_some n hdrop2]
      simp only [except_bind_ok]
      have hdrop3 : expr.drop (p + 1 + (intReprChars n).length)
          = ']' :: ((subs.map writeSub).flatten ++ rest) := drop_after hdrop2
      rw [isCharacter_hit false hdrop3 (by decide)]
      simp only [except_bind_ok]
      have hdrop4 : expr.drop (p + 1 + (intReprChars n).length + 1)
          = (subs.map writeSub).flatten ++ rest := by
        have := drop_after (l := [']']) (by simpa using hdrop3)
        simpa using this
      rw [ih f expr (p + 1 + (intReprChars n).length + 1) (key ++ [tokOfIndex (some (.int n))])
        rest (by simp at hfuel ⊢; omega) hdrop4 hstop]
      have hlist : key ++ [tokOfIndex (some (TokVal.int n))] ++ List.map subTok subs
          = key ++ List.map subTok (some n :: subs) := by
        simp [tokOfIndex, subTok]
      have hpos : p + 1 + (intReprChars n).length + 1 + ((List.map writeSub subs).flatten).length
          = p + ((List.map writeSub (some n :: subs)).flatten).length := by
        simp [writeSub]
        omega
      rw [hlist, hpos]
    | none =>
      have hdrop1 : expr.drop p = '[' :: (']' :: ((subs.map writeSub).flatten ++ rest)) := by
        rw [hdrop]
        simp [writeSub]
      rw [isCharacter_hit true hdrop1 (by decide)]
      simp only [except_bind_ok]
      rw [if_neg (by simp)]
      have hdrop2 : expr.drop (p + 1) = ']' :: ((subs.map writeSub).flatten ++ rest) := by
        have := drop_after (l := ['[']) (by simpa using hdrop1)
        simpa using this
      rw [token_index_none hdrop2]
      simp only [except_bind_ok]
      rw [isCharacter_hit false hdrop2 (by decide)]
      simp only [except_bind_ok]
      have hdrop3 : expr.drop (p + 1 + 1) = (subs.map writeSub).flatten ++ rest := by
        have := drop_after (l := [']']) (by simpa using hdrop2)
        simpa using this
      rw [ih f expr (p + 1 + 1) (key ++ [tokOfIndex none]) rest
        (by simp at hfuel ⊢; omega) hdrop3 hstop]
      have hlist : key ++ [tokOfIndex none] ++ List.map subTok subs
          = key ++ List.map subTok (none :: subs) := by
        simp [tokOfIndex, subTok]
      have hpos : p + 1 + 1 + ((List.map writeSub subs).flatten).length
          = p + ((List.map writeSub (none :: subs)).flatten).length := by
        simp [writeSub]
        omega
      rw [hlist, hpos]

theorem writeName_ne_nil {nm : List Char} {q : Bool} (hv : nm ≠ []) :
    writeName nm q ≠ [] := by
  cases q with
  | false => exact hv
  | true => simp [writeName]

theorem writeSegs_ne_nil {segs : List SegSpec} (hne : segs ≠ [])
    (hv : ∀ s ∈ segs, ValidSeg s) : writeSegs segs ≠ [] := by
  cases segs with
  | nil => exact absurd rfl hne
  | cons s more =>
    have hn : writeSeg s ≠ [] := by
      unfold writeSeg
      intro hcontra
      exact writeName_ne_nil (hv s (by simp)).1 (List.append_eq_nil.mp hcontra).1
    cases more with
    | nil => simpa [writeSegs] using hn
    | cons s2 m2 =>
      simp only [writeSegs]
      intro hcontra
      exact hn (List.append_eq_nil.mp hcontra).1

theorem keyAux_writeSegs (segs : List SegSpec) :
    ∀ (fuel : Nat) (expr : List Char) (p : Nat) (key : List KeyTok),
    segs ≠ [] → (∀ s ∈ segs, ValidSeg s) → keyFuel segs ≤ fuel →
    expr.drop p = writeSegs segs →
    Lexer.KeyAux noAliases fuel ⟨expr, p⟩ key
      = .ok (key ++ flattenKey segs, ⟨expr, p + (writeSegs segs).length⟩) := by
  induction segs with
  | nil => intro _ _ _ _ hne; exact absurd rfl hne
  | cons s more ih =>
    intro fuel expr p key _ hv hfuel hfdrop
    have hvs := hv s (by simp)
    have hmax : max (s.subs.length + 1) (keyFuel more) + 1 ≤ fuel := by
      simp only [keyFuel] at hfuel
      omega
    obtain ⟨f, rfl⟩ : ∃ f, fuel = f + 1 := ⟨fuel - 1, by omega⟩
    have hbrfuel : s.subs.length + 1 ≤ f := by omega
    have hmorefuel : keyFuel more ≤ f := by omega
    set sep : List Char := if more = [] then [] else '.' :: writeSegs more with hsep
    set subsFlat : List Char := (List.map writeSub s.subs).flatten with hsubsFlat
    have hsepchar : (more = [] ∧ sep = []) ∨ (more ≠ [] ∧ sep = '.' :: writeSegs more) := by
      cases more with
      | nil => exact Or.inl ⟨rfl, by simp [hsep]⟩
      | cons a b => exact Or.inr ⟨by simp, by simp [hsep]⟩
    have hsplit : writeSegs (s :: more) = writeSeg s ++ sep := by
      rcases hsepchar with ⟨hm, hs⟩ | ⟨hm, hs⟩
      · subst hm
        simp [writeSegs, hs]
      · rw [hs]
        cases more with
        | nil => exact absurd rfl hm
        | cons a b => simp [writeSegs]
    have hdrop1 : expr.drop p = writeName s.name s.quote ++ (subsFlat ++ sep) := by
      rw [hfdrop, hsplit]
      simp [writeSeg, hsubsFlat, List.append_assoc]
    -- the character after the written name: a suffix bracket, the separator
    -- dot, or the end of the input
    have hhead : subsFlat ++ sep = []
        ∨ (∃ cs2, subsFlat ++ sep = '[' :: cs2)
        ∨ (∃ cs2, subsFlat ++ sep = '.' :: cs2) := by
      cases hsubs : s.subs with
      | nil =>
        rcases hsepchar with ⟨hm, hs⟩ | ⟨hm, hs⟩
        · exact Or.inl (by simp [hsubsFlat, hsubs, hs])
        · exact Or.inr (Or.inr ⟨writeSegs more, by simp [hsubsFlat, hsubs, hs]⟩)
      | cons sub subs2 =>
        refine Or.inr (Or.inl ⟨(writeSub sub).tail ++ ((subs2.map writeSub).flatten ++ sep), ?_⟩)
        cases sub <;> simp [hsubsFlat, hsubs, writeSub]
    have hstop : subsFlat ++ sep = []
        ∨ ∃ c cs2, subsFlat ++ sep = c :: cs2 ∧ c ∈ RESERVED := by
      rcases hhead with hnil | ⟨cs2, hcons⟩ | ⟨cs2, hcons⟩
      · exact Or.inl hnil
      · exact Or.inr ⟨'[', cs2, hcons, by decide⟩
      · exact Or.inr ⟨'.', cs2, hcons, by decide⟩
    -- unfold one iteration of the Key loop
    unfold Lexer.KeyAux
    obtain ⟨c0, cs0, hc0⟩ := List.exists_cons_of_ne_nil
      (show expr.drop p ≠ [] by
        rw [hfdrop]
        exact writeSegs_ne_nil (by simp) hv)
    rw [endOfInput_false hc0, if_neg (by simp)]
    rw [token_writeName hdrop1 hvs.1 hvs.2 hstop]
    simp only [except_bind_ok]
    have hdrop2 : expr.drop (p + (writeName s.name s.quote).length) = subsFlat ++ sep :=
      drop_after hdrop1
    rw [keyNamePart_name key p hvs.1
      (by
        rcases hhead with hnil | ⟨cs2, hcons⟩ | ⟨cs2, hcons⟩
        · exact Or.inl (by rw [hdrop2, hnil])
        · exact Or.inr ⟨'[', cs2, by rw [hdrop2, hcons], by decide⟩
        · exact Or.inr ⟨'.', cs2, by rw [hdrop2, hcons], by decide⟩)]
    simp only [except_bind_ok]
    set p1 : Nat := p + (writeName s.name s.quote).length with hp1
    by_cases hend : subsFlat ++ sep = []
    · -- no suffixes and no following segment: the loop ends at end of input
      obtain ⟨hsf, hsp⟩ := List.append_eq_nil.mp hend
      have hm : more = [] := by
        rcases hsepchar with ⟨hm, _⟩ | ⟨hm, hs⟩
        · exact hm
        · rw [hs] at hsp
          exact absurd hsp (by simp)
      have hsubs : s.subs = [] := by
        cases hsubs2 : s.subs with
        | nil => rfl
        | cons sub subs2 =>
          rw [hsubsFlat, hsubs2] at hsf
          cases sub <;> simp [writeSub] at hsf
      rw [endOfInput_true (by rw [hdrop2, hend]), if_pos rfl]
      subst hm
      have hlist : key ++ [KeyTok.str (String.mk s.name)] = key ++ flattenKey [s] := by
        simp [flattenKey, flattenSeg, hsubs]
      have hlen : p1 = p + (writeSegs [s]).length := by
        rw [hp1]
        simp [writeSegs, writeSeg, hsubs]
      rw [hlist, hlen]
    · -- brackets or a separator remain
      obtain ⟨c1, cs1, hc1⟩ := List.exists_cons_of_ne_nil hend
      have hc1' : expr.drop p1 = c1 :: cs1 := by rw [hdrop2, hc1]
      rw [endOfInput_false hc1', if_neg (by simp)]
      have hc1h : c1 = '[' ∨ c1 = '.' := by
        rcases hhead with hnil | ⟨cs2, hcons⟩ | ⟨cs2, hcons⟩
        · exact absurd hnil hend
        · rw [hcons] at hc1
          injection hc1 with hh _
          exact Or.inl hh.symm
        · rw [hcons] at hc1
          injection hc1 with hh _
          exact Or.inr hh.symm
      rw [isCharacter_miss false false hc1'
        (by rcases hc1h with rfl | rfl <;> decide)]
      simp only [except_bind_ok]
      rw [if_neg (by simp)]
      rw [bracketLoop_writeSubs s.subs f expr p1 (key ++ [KeyTok.str (String.mk s.name)]) sep
        hbrfuel (by rw [hdrop2])
        (by
          rcases hsepchar with ⟨hm, hs⟩ | ⟨hm, hs⟩
          · exact Or.inl hs
          · exact Or.inr ⟨'.', writeSegs more, hs, by decide⟩)]
      simp only [except_bind_ok]
      set p2 : Nat := p1 + subsFlat.length with hp2
      have hdrop3 : expr.drop p2 = sep := by
        rw [hp2, hp1]
        exact drop_after (by rw [hdrop2])
      rcases hsepchar with ⟨hm, hs⟩ | ⟨hm, hs⟩
      · -- last segment: no '.' follows, the loop ends
        rw [isCharacter_eoi (by rw [hdrop3, hs]) (Or.inr rfl)]
        simp only [except_bind_ok]
        rw [if_pos trivial]
        subst hm
        have hlist : key ++ [KeyTok.str (String.mk s.name)] ++ List.map subTok s.subs
            = key ++ flattenKey [s] := by
          simp [flattenKey, flattenSeg]
        have hlen : p2 = p + (writeSegs [s]).length := by
          rw [hp2, hp1]
          simp [writeSegs, writeSeg, hsubsFlat, List.length_append]
          omega
        rw [hlist, hlen]
      · -- consume the '.' separator and parse the remaining segments
        rw [isCharacter_hit true (by rw [hdrop3, hs]) (by decide)]
        simp only [except_bind_ok]
        rw [if_neg (by simp)]
        have hdrop4 : expr.drop (p2 + 1) = writeSegs more := by
          have := drop_after (l := ['.']) (by rw [hdrop3, hs]; rfl)
          simpa using this
        have hvmore : ∀ x ∈ more, ValidSeg x := fun x hx => hv x (by simp [hx])
        obtain ⟨c2, cs2, hc2⟩ := List.exists_cons_of_ne_nil (writeSegs_ne_nil hm hvmore)
        rw [endOfInput_false (by rw [hdrop4, hc2]), if_neg (by simp)]
        rw [ih f expr (p2 + 1) (key ++ [KeyTok.str (String.mk s.name)] ++ s.subs.map subTok)
          hm hvmore hmorefuel hdrop4]
        have hlist : key ++ [KeyTok.str (String.mk s.name)] ++ s.subs.map subTok
            ++ flattenKey more = key ++ flattenKey (s :: more) := by
          simp [flattenKey, flattenSeg, List.append_assoc]
        have hlen : p2 + 1 + (writeSegs more).length
            = p + (writeSegs (s :: more)).length := by
          rw [hp2, hp1, hsplit, hs]
          simp [writeSeg, hsubsFlat, List.length_append]
          omega
        rw [hlist, hlen]

/-! ## Renderer lemmas -/

theorem replAll_escName (nm : List Char) :
    replAll '"' ['\\', '"'] (replAll '\\' ['\\', '\\'] nm) = escName nm := by
  induction nm with
  | nil => rfl
  | cons c cs ih =>
    by_cases hb : c = '\\'
    · subst hb
      simp [replAll, escName, ih]
    · by_cases hq : c = '"'
      · subst hq
        simp [replAll, escName, ih]
      · simp [replAll, escName, hb, hq, ih]

theorem renderNamePart_eq (nm : List Char) :
    renderNamePart (String.mk nm)
      = String.mk (writeName nm (nm.any fun c => isWordChar c = false)) := by
  unfold renderNamePart writeName
  rw [string_toList_mk]
  cases hq : nm.any (fun c => isWordChar c = false) with
  | false => simp
  | true => simp [replAll_escName]

theorem appendLast_snoc (xs : List String) (a x : String) :
    appendLast (xs ++ [a]) x = xs ++ [a ++ x] := by
  induction xs with
  | nil => rfl
  | cons y ys ih =>
    cases hys : ys ++ [a] with
    | nil => exact absurd hys (by simp)
    | cons z zs =>
      have h1 : (y :: ys) ++ [a] = y :: z :: zs := by rw [List.cons_append, hys]
      rw [h1]
      show y :: appendLast (z :: zs) x = (y :: ys) ++ [a ++ x]
      rw [← hys, ih, List.cons_append]

theorem getKeyNameAux_subs (subs : List (Option Int)) :
    ∀ (rest : List KeyTok) (parts : List String) (pstr : String),
    getKeyNameAux (subs.map subTok ++ rest) (parts ++ [pstr])
      = getKeyNameAux rest (parts ++ [pstr ++ String.mk ((subs.map writeSub).flatten)]) := by
  induction subs with
  | nil =>
    intro rest parts pstr
    simp
  | cons sub subs ih =>
    intro rest parts pstr
    cases sub with
    | some n =>
      show getKeyNameAux (KeyTok.int n :: (subs.map subTok ++ rest)) (parts ++ [pstr]) = _
      rw [show getKeyNameAux (KeyTok.int n :: (subs.map subTok ++ rest)) (parts ++ [pstr])
          = getKeyNameAux (subs.map subTok ++ rest)
              (appendLast (parts ++ [pstr]) (String.mk ('[' :: intReprChars n ++ [']'])))
        from by rw [getKeyNameAux]; simp]
      rw [appendLast_snoc, ih]
      have hps : pstr ++ String.mk ('[' :: intReprChars n ++ [']'])
            ++ String.mk ((subs.map writeSub).flatten)
          = pstr ++ String.mk ((List.map writeSub (some n :: subs)).flatten) := by
        cases pstr with
        | mk d =>
          show String.mk ((d ++ ('[' :: intReprChars n ++ [']']))
              ++ (subs.map writeSub).flatten)
            = String.mk (d ++ (List.map writeSub (some n :: subs)).flatten)
          exact congrArg String.mk (by simp [writeSub])
      rw [hps]
    | none =>
      show getKeyNameAux (KeyTok.slice :: (subs.map subTok ++ rest)) (parts ++ [pstr]) = _
      rw [show getKeyNameAux (KeyTok.slice :: (subs.map subTok ++ rest)) (parts ++ [pstr])
          = getKeyNameAux (subs.map subTok ++ rest) (appendLast (parts ++ [pstr]) "[]")
        from by rw [getKeyNameAux]; simp]
      rw [appendLast_snoc, ih]
      have hps : pstr ++ "[]" ++ String.mk ((subs.map writeSub).flatten)
          = pstr ++ String.mk ((List.map writeSub (none :: subs)).flatten) := by
        cases pstr with
        | mk d =>
          show String.mk ((d ++ ['[', ']']) ++ (subs.map writeSub).flatten)
            = String.mk (d ++ (List.map writeSub (none :: subs)).flatten)
          exact congrArg String.mk (by simp [writeSub])
      rw [hps]

theorem getKeyNameAux_flatten (ks : List SegSpec) :
    ∀ (parts : List String),
    getKeyNameAux (flattenKey ks) parts
      = some (parts ++ ks.map (fun s => String.mk (writeSeg (canonSeg s)))) := by
  induction ks with
  | nil => intro parts; simp [flattenKey, getKeyNameAux]
  | cons s more ih =>
    intro parts
    have hflat : flattenKey (s :: more)
        = KeyTok.str (String.mk s.name) :: (s.subs.map subTok ++ flattenKey more) := by
      simp [flattenKey, flattenSeg]
    rw [hflat]
    rw [show getKeyNameAux
          (KeyTok.str (String.mk s.name) :: (s.subs.map subTok ++ flattenKey more)) parts
        = getKeyNameAux (s.subs.map subTok ++ flattenKey more)
            (parts ++ [renderNamePart (String.mk s.name)])
      from by rw [getKeyNameAux]]
    rw [getKeyNameAux_subs s.subs (flattenKey more) parts
      (renderNamePart (String.mk s.name)), ih]
    have : renderNamePart (String.mk s.name) ++ String.mk ((s.subs.map writeSub).flatten)
        = String.mk (writeSeg (canonSeg s)) := by
      rw [renderNamePart_eq, ← smk_append]
      have : writeSeg (canonSeg s)
          = writeName s.name (s.name.any fun c => isWordChar c = false)
            ++ (s.subs.map writeSub).flatten := by
        simp [writeSeg, canonSeg]
      rw [this]
    rw [List.append_assoc, ← List.singleton_append, this]
    simp

theorem joinDot_canon (ks : List SegSpec) (hne : ks ≠ []) :
    joinDot (ks.map fun s => String.mk (writeSeg (canonSeg s)))
      = String.mk (writeSegs (canonKey ks)) := by
  induction ks with
  | nil => exact absurd rfl hne
  | cons s more ih =>
    cases more with
    | nil => simp [joinDot, canonKey, writeSegs]
    | cons s2 m2 =>
      have hmap : (s :: s2 :: m2).map (fun s => String.mk (writeSeg (canonSeg s)))
          = String.mk (writeSeg (canonSeg s))
            :: (s2 :: m2).map (fun s => String.mk (writeSeg (canonSeg s))) := by
        simp
      rw [hmap]
      have hjd : joinDot (String.mk (writeSeg (canonSeg s))
            :: (s2 :: m2).map (fun s => String.mk (writeSeg (canonSeg s))))
          = String.mk (writeSeg (canonSeg s)) ++ "."
            ++ joinDot ((s2 :: m2).map (fun s => String.mk (writeSeg (canonSeg s)))) := by
        rw [joinDot]
        simp
      rw [hjd, ih (by simp)]
      have hws : writeSegs (canonKey (s :: s2 :: m2))
          = writeSeg (canonSeg s) ++ '.' :: writeSegs (canonKey (s2 :: m2)) := by
        simp [canonKey, writeSegs]
      rw [hws, smk_append]
      have : String.mk ('.' :: writeSegs (canonKey (s2 :: m2)))
          = "." ++ String.mk (writeSegs (canonKey (s2 :: m2))) := rfl
      rw [this, String.append_assoc]

theorem subsFlat_len_ge (subs : List (Option Int)) :
    subs.length ≤ ((subs.map writeSub).flatten).length := by
  induction subs with
  | nil => simp
  | cons sub subs ih =>
    have h2 : 1 ≤ (writeSub sub).length := by cases sub <;> simp [writeSub]
    simp only [List.map_cons, List.flatten_cons, List.length_append, List.length_cons]
    omega

theorem keyFuel_le (segs : List SegSpec) (hv : ∀ s ∈ segs, ValidSeg s) :
    keyFuel segs ≤ (writeSegs segs).length + 1 := by
  induction segs with
  | nil => simp [keyFuel, writeSegs]
  | cons s more ih =>
    have hname : 1 ≤ (writeName s.name s.quote).length := by
      have := writeName_ne_nil (q := s.quote) (hv s (by simp)).1
      cases hwn : writeName s.name s.quote with
      | nil => exact absurd hwn this
      | cons a b => simp
    have hseg : s.subs.length + 1 ≤ (writeSeg s).length := by
      have := subsFlat_len_ge s.subs
      simp only [writeSeg, List.length_append]
      omega
    have hmore := ih (fun x hx => hv x (by simp [hx]))
    cases more with
    | nil =>
      simp only [keyFuel, writeSegs]
      omega
    | cons s2 m2 =>
      simp only [keyFuel, writeSegs, List.length_append, List.length_cons]
      simp only [keyFuel, writeSegs] at hmore
      omega

theorem parseTransform_restriction (syms : String → Option FuncInfo)
    (st : LexState) (funcName : Option String) (active : Option Int)
    (mapT restr : Bool) (t : _TransformCall) (st' : LexState)
    (h : Lexer._ParseTransform syms st funcName active mapT restr = .ok (t, st')) :
    t.restriction = restr := by
  unfold Lexer._ParseTransform at h
  split at h
  · simp [throw, throwThe, MonadExceptOf.throw] at h
  · split at h <;>
    · cases ha : Lexer.Args st false with
      | error e => rw [ha] at h; simp [Bind.bind, Except.bind] at h
      | ok pr =>
        rw [ha] at h
        simp only [Bind.bind, Except.bind] at h
        split at h <;>
        · simp only [Except.ok.injEq, Prod.mk.injEq] at h
          rw [← h.1]

theorem transformStep_tail_ok (transform : _TransformCall) (calls calls' : _Transform)
    (active active' : Option Int) (mapT mapT' : Bool) (st : LexState) (here : Nat)
    (h : transformStep transform calls active mapT st here = .ok (calls', active', mapT'))
    (h1 : ((calls.transforms.drop 1).all (fun c => c.restriction = false)) = true)
    (h2 : transform.restriction = true → calls.transforms = []) :
    ((calls'.transforms.drop 1).all (fun c => c.restriction = false)) = true := by
  unfold transformStep at h
  split at h
  · cases h; exact h1
  · split at h
    · cases h; exact h1
    · split at h
      · split at h
        · exact absurd h (by simp)
        · cases h; simpa [_Transform.SetConditional] using h1
      · cases h
        simp only [_Transform.Add]
        cases hl : calls.transforms with
        | nil => simp [hl]
        | cons a l =>
          cases hr : transform.restriction with
          | false =>
            simp only [List.cons_append, List.drop_succ_cons, List.drop_zero] at h1 ⊢
            simp [List.all_append, h1, hr]
            rw [hl] at h1
            simp only [List.drop_succ_cons, List.drop_zero, List.all_eq_true,
              decide_eq_true_eq] at h1
            exact h1
          | true => rw [h2 hr] at hl; exact absurd hl (by simp)

theorem transformAux_tail_ok (syms : String → Option FuncInfo)
    (aliases : String → Option (List KeyTok)) :
    ∀ (fuel : Nat) (st : LexState) (funcName : Option String) (active : Option Int)
      (mapT restr : Bool) (calls : _Transform) (here : Nat),
      ((calls.transforms.drop 1).all (fun c => c.restriction = false)) = true →
      (restr = true → calls.transforms = []) →
      tailRestrictionOk
        (Lexer.TransformAux syms aliases fuel st funcName active mapT restr calls here)
        = true := by
  intro fuel
  induction fuel with
  | zero => intro st funcName active mapT restr calls here h1 h2; rfl
  | succ n ih =>
    intro st funcName active mapT restr calls here h1 h2
    unfold Lexer.TransformAux
    cases hp : Lexer._ParseTransform syms st funcName active mapT restr with
    | error e => simp [Bind.bind, Except.bind, tailRestrictionOk]
    | ok pr =>
      obtain ⟨t, st1⟩ := pr
      have hres : t.restriction = restr := parseTransform_restriction _ _ _ _ _ _ _ _ hp
      simp only [Bind.bind, Except.bind]
      cases hs : transformStep t calls active mapT st1 here with
      | error e => simp [tailRestrictionOk]
      | ok triple =>
        obtain ⟨calls', active', mapT'⟩ := triple
        have h1' : ((calls'.transforms.drop 1).all
            (fun c => c.restriction = false)) = true :=
          transformStep_tail_ok t calls calls' active active' mapT mapT' st1 here hs h1
            (fun hr => h2 (hres ▸ hr))
        cases hn : Lexer.TransformNext aliases st1 with
        | error e => simp [tailRestrictionOk]
        | ok onext =>
          cases onext with
          | none => simpa [tailRestrictionOk] using h1'
          | some trip =>
            obtain ⟨funcName', here', st'⟩ := trip
            exact ih st' funcName' active' mapT' false calls' here' h1'
              (fun hc => absurd hc (by simp))


/-- Claim C1: the round-trip law of the key parser and renderer. For every
well-formed key string — the writing of an abstract key (per the grammar of
spec section 4.2: `.`-separated segments, each a non-empty name with
`[NUMBER]`/`[]` suffixes, names double-quoted at will and bare only when
word-only; the empty key written as the whole-resource `.`) —
`GetKeyName(Lexer(k).Key())` equals the canonical form of `k`, in which
exactly the names containing non-word characters are double-quoted. -/
theorem C1_render_parse_roundtrip (ks : List SegSpec) (h : ValidKey ks) :
    (Lexer.Key ⟨writeKey ks, 0⟩ noAliases).map (fun pr => GetKeyName pr.1)
      = .ok (some (String.mk (writeKey (canonKey ks)))) := by
  cases ks with
  | nil => decide
  | cons s more =>
    have hv : ∀ x ∈ s :: more, ValidSeg x := h
    have hwk : writeKey (s :: more) = writeSegs (s :: more) := by simp [writeKey]
    have hkey := keyAux_writeSegs (s :: more) ((writeKey (s :: more)).length + 1)
      (writeKey (s :: more)) 0 [] (by simp) hv
      (le_trans (keyFuel_le _ hv) (by rw [hwk]))
      (by rw [hwk]; simp)
    unfold Lexer.Key
    rw [hkey]
    simp only [Except.map, List.nil_append, Nat.zero_add]
    unfold GetKeyName
    rw [getKeyNameAux_flatten (s :: more) []]
    simp only [Option.map_some', List.nil_append]
    rw [if_neg (by simp)]
    rw [joinDot_canon (s :: more) (by simp)]
    have hck : writeKey (canonKey (s :: more)) = writeSegs (canonKey (s :: more)) := by
      simp [writeKey, canonKey]
    rw [hck]

/-- Witness for C1: the round-trip law applied to the concrete well-formed
key `a[3][]."x y"` (a bare word name with an index and a slice suffix,
followed by a quoted name containing a space). -/
theorem C1_render_parse_roundtrip_witness :
    (Lexer.Key ⟨writeKey [⟨"a".toList, [some 3, none], false⟩,
        ⟨"x y".toList, [], true⟩], 0⟩ noAliases).map (fun pr => GetKeyName pr.1)
      = .ok (some (String.mk (writeKey (canonKey [⟨"a".toList, [some 3, none], false⟩,
        ⟨"x y".toList, [], true⟩])))) :=
  C1_render_parse_roundtrip
    [⟨"a".toList, [some 3, none], false⟩, ⟨"x y".toList, [], true⟩] (by decide)

/-- Claim C4: `Key()` on `a.b[3].c[].d` returns exactly the encoded segment
list `['a', 'b', 3, 'c', None, 'd']` — names as strings, `[NUMBER]` as the
integer, `[]` as the slice marker, in input order. -/
theorem C4_key_segments :
    Lexer.Key ⟨"a.b[3].c[].d".toList, 0⟩ noAliases
      = .ok ([.str "a", .str "b", .int 3, .str "c", .slice, .str "d"],
             ⟨"a.b[3].c[].d".toList, 12⟩) := by decide

/-- Claim C5: adjacent quoted segments assemble into one token
(`"foo"" & ""bar"` scans to `foo & bar`), and `a\"b` scans to the single
token `a"b` whose quoted flag is false, so with numeric conversion requested
it is still attempted (and falls back to the string). -/
theorem C5_quote_handling :
    Lexer.Token ⟨"\"foo\"\" & \"\"bar\"".toList, 0⟩ [] false true false
      = .ok (some (.str "foo & bar"), ⟨"\"foo\"\" & \"\"bar\"".toList, 15⟩)
    ∧ tokenScanAux [] false ("a\\\"b".toList) 0 none false none 0
      = .ok ⟨some ['a', '"', 'b'], false, 4⟩
    ∧ Lexer.Token ⟨"a\\\"b".toList, 0⟩ [] false true true
      = .ok (some (.str "a\"b"), ⟨"a\\\"b".toList, 4⟩) := by
  refine ⟨by decide, by decide, by decide⟩

/-- Claim C6: `Args()` on `()` returns the empty list, on `(1,2,3)` the three
arguments in order; `(1,,3)` and `(1,)` raise an argument-expected syntax
error, returning no partial list. -/
theorem C6_args_cases :
    Lexer.Args ⟨"()".toList, 1⟩ true = .ok ([], ⟨"()".toList, 2⟩)
    ∧ Lexer.Args ⟨"(1,2,3)".toList, 1⟩ true
        = .ok ([.int 1, .int 2, .int 3], ⟨"(1,2,3)".toList, 7⟩)
    ∧ Lexer.Args ⟨"(1,,3)".toList, 1⟩ true
        = .error (.argExpected "(1, *HERE* ,3)")
    ∧ Lexer.Args ⟨"(1,)".toList, 1⟩ true
        = .error (.argExpected "(1, *HERE* )") := by
  refine ⟨by decide, by decide, by decide, by decide⟩

/-- Claim C7: with numeric conversion, an unquoted integer token converts to
the integer, an unquoted decimal to the float value, a quoted `"42"` stays
the string; quoted tokens are never coerced and integer parsing is attempted
before floating-point parsing. -/
theorem C7_numeric_coercion :
    Lexer.Token ⟨"42".toList, 0⟩ [] false true true
      = .ok (some (.int 42), ⟨"42".toList, 2⟩)
    ∧ Lexer.Token ⟨"3.14".toList, 0⟩ [] false true true
      = .ok (some (.float (.finite (mkRat 157 50))), ⟨"3.14".toList, 4⟩)
    ∧ mkRat 157 50 = (314 : ℚ) / 100
    ∧ Lexer.Token ⟨"\"42\"".toList, 0⟩ [] false true true
      = .ok (some (.str "42"), ⟨"\"42\"".toList, 4⟩)
    ∧ (∀ (cs : List Char) (b : Bool),
        convertTok (some cs) true b = some (.str (String.mk cs)))
    ∧ (∀ (cs : List Char) (n : Int), pyParseInt (String.mk cs) = some n →
        convertTok (some cs) false true = some (.int n)) := by
  refine ⟨by decide, by decide, by norm_num [Rat.mkRat_eq_div], by decide, ?_, ?_⟩
  · intro cs b
    simp [convertTok]
  · intro cs n h
    have hne : cs ≠ [] := by
      intro he
      subst he
      simp [pyParseInt, stripWs, digitsToNat?] at h
    simp [convertTok, hne, h]

/-- Witness for C7: the quantified conjuncts applied at concrete inputs. -/
theorem C7_numeric_coercion_witness :
    convertTok (some ['4']) true true = some (.str (String.mk ['4']))
    ∧ convertTok (some ['7']) false true = some (.int 7) :=
  ⟨C7_numeric_coercion.2.2.2.2.1 ['4'] true,
   C7_numeric_coercion.2.2.2.2.2 ['7'] 7 (by decide)⟩

/-- Claim C8: alias substitution only for a leading segment not followed by
`(`: with alias `x ↦ a.b`, `x.c` parses to `[a, b, c]`, `y.x.c` keeps `x`
literal, and a leading `x(` is left as a function-call name. -/
theorem C8_alias_first_segment :
    Lexer.Key ⟨"x.c".toList, 0⟩ exAliases
      = .ok ([.str "a", .str "b", .str "c"], ⟨"x.c".toList, 3⟩)
    ∧ Lexer.Key ⟨"y.x.c".toList, 0⟩ exAliases
      = .ok ([.str "y", .str "x", .str "c"], ⟨"y.x.c".toList, 5⟩)
    ∧ Lexer.Key ⟨"x(".toList, 0⟩ exAliases
      = .ok ([.str "x"], ⟨"x(".toList, 1⟩) := by
  refine ⟨by decide, by decide, by decide⟩

/-- Counterexample to claim C3: parsing the single literal `.` yields the
EMPTY segment list, not a non-empty single-segment list. -/
theorem C3_counterexample :
    (Lexer.Key ⟨['.'], 0⟩ noAliases).map (fun p => p.1) = .ok []
    ∧ ([] : List KeyTok).length ≠ 1 := ⟨by decide, by decide⟩

/-- Claim C3 as amended: parsing `.` (alone, or at a reserved-operator
boundary, with no segments parsed yet) yields the empty segment list — the
encoding of the whole-resource key, rendered back as `.` — while `.`
followed by non-reserved content such as `.x` is a syntax error. -/
theorem C3_whole_resource_key :
    Lexer.Key ⟨['.'], 0⟩ noAliases = .ok ([], ⟨['.'], 1⟩)
    ∧ GetKeyName [] = some "."
    ∧ Lexer.Key ⟨".(".toList, 0⟩ noAliases = .ok ([], ⟨".(".toList, 1⟩)
    ∧ Lexer.Key ⟨".x".toList, 0⟩ noAliases
      = .error (.nonEmptyKeyNameExpected "*HERE* .x") := by
  refine ⟨by decide, by decide, by decide, by decide⟩

/-- Counterexample to claim C2: a list-mapped call does NOT pass a truthy
non-list subject through unchanged — evaluating the parsed chain
`map().upper()` on the non-list subject `"hello"` applies the call and
yields `"HELLO"`. -/
theorem C2_counterexample :
    (exMapUpperChain.map fun p => p.1.Evaluate (Value.str "hello"))
      = .ok (Value.str "HELLO")
    ∧ Value.str "HELLO" ≠ Value.str "hello" := by
  refine ⟨rfl, ?_⟩
  intro h
  injection h with h2
  exact absurd h2 (by decide)

/-- Claim C2 as amended: for a call marked list-mapped, a falsy non-list-like
current value is passed through unchanged; a list-like current value is
replaced by the per-element application of the call's function; and a truthy
non-list-like current value has the call's function applied to it as a whole
(it is not passed through). The single-call chain equation ties `evalStep`
to `Evaluate`. -/
theorem C2_map_semantics (c : _TransformCall) (obj : Value)
    (hm : c.map_transform = true) :
    (IsListLike obj = false → pyTruthy obj = false → evalStep c obj = obj)
    ∧ (∀ items, obj = .list items →
        evalStep c obj
          = .list (items.map fun item => c.func.run (item :: c.args) c.kwargs))
    ∧ (IsListLike obj = false → pyTruthy obj = true → c.restriction = false →
        evalStep c obj = c.func.run (obj :: c.args) c.kwargs)
    ∧ (∀ cond, (_Transform.mk cond [c]).Evaluate obj = evalStep c obj) := by
  refine ⟨?_, ?_, ?_, ?_⟩
  · intro hl ht
    simp [evalStep, hm, hl, ht]
  · intro items hobj
    subst hobj
    simp [evalStep, hm, IsListLike]
  · intro hl ht hr
    simp [evalStep, hm, hl, ht, hr]
  · intro cond
    rfl

/-- Witness for C2's amended claim: the mapped `upper` call passes the falsy
non-list `None` through, maps over a list, and applies to a truthy string. -/
theorem C2_map_semantics_witness :
    evalStep exMapUpperCall .none_ = .none_
    ∧ evalStep exMapUpperCall (.list [.str "a"])
        = .list ([Value.str "a"].map fun item =>
            exMapUpperCall.func.run (item :: exMapUpperCall.args) exMapUpperCall.kwargs)
    ∧ evalStep exMapUpperCall (.str "go")
        = exMapUpperCall.func.run (.str "go" :: exMapUpperCall.args) exMapUpperCall.kwargs :=
  ⟨(C2_map_semantics exMapUpperCall .none_ rfl).1 rfl rfl,
   (C2_map_semantics exMapUpperCall (.list [.str "a"]) rfl).2.1 [.str "a"] rfl,
   (C2_map_semantics exMapUpperCall (.str "go") rfl).2.2.1 rfl rfl rfl⟩

/-- Claim C10: in every chain returned by `Transform()`, at most the first
parsed call carries the restriction flag — the caller's flag is consumed by
the first parse and every subsequent call is parsed with restriction false,
for any input state, symbol table, alias table and flag values. -/
theorem C10_restriction_only_first (st : LexState)
    (syms : String → Option FuncInfo) (aliases : String → Option (List KeyTok))
    (funcName : String) (active : Option Int) (restr : Bool) :
    tailRestrictionOk (Lexer.Transform st syms aliases funcName active restr)
      = true := by
  unfold Lexer.Transform
  exact transformAux_tail_ok syms aliases _ st (some funcName) active false restr
    ⟨none, []⟩ st.pos rfl (fun _ => rfl)

/-- Claim C9: evaluation never mutates the chain — `Evaluate` with the call
list threaded through as state returns the chain unchanged together with the
same result value, for every chain and every subject. -/
theorem C9_evaluate_preserves_chain (t : _Transform) (obj : Value) :
    t.EvaluateSt obj = (t, t.Evaluate obj) := by
  cases t with
  | mk cond transforms =>
    simp [_Transform.EvaluateSt, _Transform.Evaluate, evalListSt_eq]

end ResourceLex
